import Mathlib

/-!
Verification of the core name-resolution and vault components of the
BLACKBOXLIMITEDVERSION repository, as a shallow embedding in Lean 4.

Conventions of the embedding:

* Text is modelled as `List Char`.  The Python string operations used by the
  source (`str.lower`, `str.strip`, `str.split`, the `re.sub` calls with the
  concrete patterns appearing in the source) are translated to executable
  functions on `List Char`; the ASCII fragment of Python semantics is modelled
  (the repository only ever handles ASCII site names and transcripts).
* Confidence scores are exact rationals (`ℚ`); the source's floats only ever
  hold small dyadic/decimal values produced by the arithmetic modelled here.
* `rapidfuzz.fuzz.ratio` is the normalized InDel similarity
  `100 * 2 * lcs(a,b) / (|a| + |b|)`; it is implemented below by a
  longest-common-subsequence dynamic program.
* `metaphone.doublemetaphone` is an external third-party library, consumed by
  the source as a black box returning a pair of phonetic codes.  The resolver
  functions are therefore parameterized over the encoder
  `dm : List Char → List Char × List Char`, and every theorem quantifies over
  it (or is stated so that it does not depend on it).
* The vault's SQLCipher storage is modelled at the contract level the source
  is written against: a store file carries the key it was encrypted under,
  and reads through a connection succeed exactly when the connection's key
  material matches the store's key (an empty fresh store has no key material
  yet and can be read under any key).  Crucially, the source issues its
  keying statement as `execute("PRAGMA key = ?", (passphrase,))`: a PRAGMA
  statement cannot take a bound parameter, so this raises
  `sqlite3.OperationalError` on every call (under the stock `sqlite3` module
  the repository imports, and equally under an SQLCipher build, whose
  documentation forbids binding the key).  `initialize_vault`,
  `unlock_vault` and the rekeying part of `change_master_passphrase`
  therefore always land in their `except` handlers; the embedding models
  this collapsed error path faithfully.  Argon2id hashing is modelled as an
  idealized collision-free record of salt and passphrase; verification
  succeeds exactly on the hashed passphrase.
-/

namespace Blackbox

/-! ## Character-level text utilities (Python string / regex fragment) -/

/-- Python `\s` on the ASCII fragment: space, tab, newline, carriage return,
form feed, vertical tab. -/
def isWS (c : Char) : Bool :=
  c = ' ' || c = '\t' || c = '\n' || c = '\r' || c = '\x0b' || c = '\x0c'

/-- Python `\w` on the ASCII fragment: letters, digits, underscore. -/
def isWord (c : Char) : Bool :=
  ('a' ≤ c && c ≤ 'z') || ('A' ≤ c && c ≤ 'Z') || ('0' ≤ c && c ≤ '9') || c = '_'

/-- Python `str.lower` on the ASCII fragment. -/
def lowerChar (c : Char) : Char :=
  if 'A' ≤ c && c ≤ 'Z' then Char.ofNat (c.toNat + 32) else c

/-- Python `str.strip`: drop leading and trailing whitespace. -/
def pyStrip (s : List Char) : List Char :=
  ((s.dropWhile isWS).reverse.dropWhile isWS).reverse

/-- `re.sub(r'\s+', ' ', s)`: collapse every whitespace run to one space. -/
def collapseWS : List Char → List Char
  | [] => []
  | [c] => if isWS c then [' '] else [c]
  | c :: d :: rest =>
    if isWS c then
      if isWS d then collapseWS (d :: rest) else ' ' :: collapseWS (d :: rest)
    else c :: collapseWS (d :: rest)

/-- Helper for `splitWS`: walk the characters, accumulating the current
word (reversed) and emitting it at each whitespace boundary. -/
def splitWSAux : List Char → List Char → List (List Char)
  | [], acc => if acc.isEmpty then [] else [acc.reverse]
  | c :: rest, acc =>
    if isWS c then
      if acc.isEmpty then splitWSAux rest [] else acc.reverse :: splitWSAux rest []
    else splitWSAux rest (c :: acc)

/-- Python `str.split()` with no argument: split on whitespace runs,
returning no empty words. -/
def splitWS (s : List Char) : List (List Char) :=
  splitWSAux s []

/-- Python substring containment `a in b` (contiguous substring). -/
def isSubstr (a b : List Char) : Bool :=
  go b
where
  go : List Char → Bool
    | [] => a.isPrefixOf []
    | c :: rest => a.isPrefixOf (c :: rest) || go rest

/-- `re.sub(r'\s+(dot\s+)?WORD$', '', s)` for a literal suffix word
(`com`, `org`, ...): strip a trailing domain suffix, optionally preceded by
a spoken "dot".  The leftmost match of the anchored pattern removes the
whole maximal trailing `[ws+ [dot ws+]] WORD` segment. -/
def stripDomSuffix (word : List Char) (s : List Char) : List Char :=
  let r := s.reverse
  if word.reverse.isPrefixOf r then
    let r1 := r.drop word.length
    let w1 := r1.takeWhile isWS
    if w1.isEmpty then s
    else
      let r2 := r1.dropWhile isWS
      if ['t', 'o', 'd'].isPrefixOf r2 then
        let r3 := r2.drop 3
        if (r3.takeWhile isWS).isEmpty then r2.reverse
        else (r3.dropWhile isWS).reverse
      else r2.reverse
  else s

/-- Replace every character that is neither a word character nor whitespace
by a space: `re.sub(r'[^\w\s]', ' ', s)`. -/
def punctToSpace (s : List Char) : List Char :=
  s.map fun c => if isWord c || isWS c then c else ' '

/-! ## Longest common subsequence and `rapidfuzz.fuzz.ratio` -/

/-- One row update of the LCS dynamic program: given the previous row for
prefixes of `b` and the next character `c` of `a`, produce the new row. -/
def lcsStep (c : Char) (b : List Char) (prev : List ℕ) : List ℕ :=
  go b prev 0 0
where
  go : List Char → List ℕ → ℕ → ℕ → List ℕ
    | [], _, _, _ => []
    | _ :: _, [], _, _ => []
    | d :: bs, p :: ps, diag, left =>
      let here := if c = d then diag + 1 else max p left
      here :: go bs ps p here

/-- Length of the longest common subsequence of `a` and `b` by the standard
row dynamic program (rows indexed by positions of `b`, cell `0` dropped). -/
def lcsLen (a b : List Char) : ℕ :=
  (a.foldl (fun row c => lcsStep c b row) (List.replicate b.length 0)).getLast? |>.getD 0

/-- `rapidfuzz.fuzz.ratio`: normalized InDel similarity in `[0,100]`,
`100` on two empty strings. -/
def ratioScore (a b : List Char) : ℚ :=
  if a.length + b.length = 0 then 100
  else (100 * (2 * lcsLen a b) : ℚ) / (a.length + b.length)

/-- `rapidfuzz.process.extractOne(q, choices, scorer=fuzz.ratio)` with the
default cutoff: best-scoring choice, first one kept on ties, `none` only for
an empty choice list. -/
def extractOne (q : List Char) (choices : List (List Char)) :
    Option (List Char × ℚ) :=
  choices.foldl
    (fun best c =>
      let s := ratioScore q c
      match best with
      | none => some (c, s)
      | some (b, bs) => if s > bs then some (c, s) else some (b, bs))
    none

/-! ## `resolve_deterministic.py`: `DeterministicResolver` -/

/-- `ResolutionResult` dataclass of `resolve_deterministic.py`. -/
structure ResolutionResult where
  site : Option (List Char)
  confidence : ℚ
  method : String
  original_text : List Char
  cleaned_text : List Char
  needs_confirmation : Bool := false
deriving DecidableEq, Repr

/-- The site catalog: canonical name mapped to ordered aliases, in the
insertion order of the underlying Python dict. -/
abbrev Catalog := List (List Char × List (List Char))

/-- A double-metaphone style phonetic encoder: primary and secondary code.
The source consumes the third-party `metaphone.doublemetaphone` as a black
box of this shape, so the resolver is parameterized over it. -/
abbrev PhoneticEncoder := List Char → List Char × List Char

/-- `DeterministicResolver.accept_threshold`. -/
def accept_threshold : ℚ := 88/100

/-- `DeterministicResolver.llm_threshold` (defined by the source but unused
by `resolve_site`). -/
def llm_threshold : ℚ := 82/100

/-- `DeterministicResolver.confirmation_threshold`. -/
def confirmation_threshold : ℚ := 75/100

/-- `DeterministicResolver._normalize_text`: lowercase and strip, strip the
six spoken domain suffixes, remove punctuation, collapse whitespace. -/
def normalize_text (text : List Char) : List Char :=
  let n := pyStrip (text.map lowerChar)
  let n := stripDomSuffix "com".toList n
  let n := stripDomSuffix "org".toList n
  let n := stripDomSuffix "net".toList n
  let n := stripDomSuffix "edu".toList n
  let n := stripDomSuffix "gov".toList n
  let n := stripDomSuffix "mil".toList n
  let n := punctToSpace n
  pyStrip (collapseWS n)

/-- `DeterministicResolver._get_all_aliases`: concatenation of all alias
lists in catalog order. -/
def get_all_aliases (cat : Catalog) : List (List Char) :=
  (cat.map Prod.snd).flatten

/-- The `for canonical, aliases in self.sites.items(): if text in aliases`
search shared by the exact and fuzzy strategies: first canonical whose alias
list contains `t`. -/
def findCanonical (cat : Catalog) (t : List Char) : Option (List Char) :=
  (cat.find? fun p => p.2.contains t).map Prod.fst

/-- `DeterministicResolver._exact_match`. -/
def exact_match (cat : Catalog) (text : List Char) : ResolutionResult :=
  if (get_all_aliases cat).contains text then
    match findCanonical cat text with
    | some canonical => ⟨some canonical, 1, "exact_match", text, text, false⟩
    | none => ⟨none, 0, "exact_match", text, text, false⟩
  else ⟨none, 0, "exact_match", text, text, false⟩

/-- `DeterministicResolver._fuzzy_match` (fuzzy floor 70). -/
def fuzzy_match (cat : Catalog) (text : List Char) : ResolutionResult :=
  match extractOne text (get_all_aliases cat) with
  | none => ⟨none, 0, "fuzzy_match", text, text, false⟩
  | some (best, score) =>
    if score ≥ 70 then
      match findCanonical cat best with
      | some canonical => ⟨some canonical, score / 100, "fuzzy_match", text, text, false⟩
      | none => ⟨none, 0, "fuzzy_match", text, text, false⟩
    else ⟨none, 0, "fuzzy_match", text, text, false⟩

/-- One candidate step of the phonetic strategy's nested loop: primary codes
equal scores `0.9`, secondary codes equal scores `0.8`, strictly greater
scores replace the running best. -/
def phoneticStep (dm : PhoneticEncoder) (text : List Char)
    (acc : ℚ × Option (List Char)) (canonical al : List Char) :
    ℚ × Option (List Char) :=
  let tp := dm text
  let ap := dm al
  if tp.1 ≠ [] && ap.1 ≠ [] then
    if tp.1 = ap.1 then
      if (9/10 : ℚ) > acc.1 then (9/10, some canonical) else acc
    else if tp.2 ≠ [] && ap.2 ≠ [] && tp.2 = ap.2 then
      if (8/10 : ℚ) > acc.1 then (8/10, some canonical) else acc
    else acc
  else acc

/-- `DeterministicResolver._phonetic_match`. -/
def phonetic_match (dm : PhoneticEncoder) (cat : Catalog) (text : List Char) :
    ResolutionResult :=
  let best := cat.foldl
    (fun acc p => p.2.foldl (fun acc al => phoneticStep dm text acc p.1 al) acc)
    ((0 : ℚ), (none : Option (List Char)))
  if best.1 ≥ 8/10 then ⟨best.2, best.1, "phonetic_match", text, text, false⟩
  else ⟨none, 0, "phonetic_match", text, text, false⟩

/-- The inner word-overlap count of the partial strategy: words of the text
that are a substring of some alias word or contain some alias word. -/
def partialMatches (words alias_words : List (List Char)) : ℕ :=
  (words.filter fun w => alias_words.any fun aw => isSubstr w aw || isSubstr aw w).length

/-- One candidate step of the partial strategy's nested loop. -/
def partialStep (words : List (List Char)) (acc : ℚ × Option (List Char))
    (canonical al : List Char) : ℚ × Option (List Char) :=
  let alias_words := splitWS al
  let nmatches := partialMatches words alias_words
  if nmatches > 0 then
    let score : ℚ := (nmatches : ℚ) / (max words.length alias_words.length : ℕ)
    if score > acc.1 && score ≥ 6/10 then (score, some canonical) else acc
  else acc

/-- `DeterministicResolver._partial_match`. -/
def partial_match (cat : Catalog) (text : List Char) : ResolutionResult :=
  let words := splitWS text
  let best := cat.foldl
    (fun acc p => p.2.foldl (fun acc al => partialStep words acc p.1 al) acc)
    ((0 : ℚ), (none : Option (List Char)))
  if best.1 ≥ 6/10 then ⟨best.2, best.1, "partial_match", text, text, false⟩
  else ⟨none, 0, "partial_match", text, text, false⟩

/-- `DeterministicResolver.resolve_site`: run the four strategies over the
normalized text, keep the strictly best confidence, then apply the
confirmation-threshold policy. -/
def resolve_site (dm : PhoneticEncoder) (cat : Catalog) (text : List Char) :
    ResolutionResult :=
  if text.isEmpty then ⟨none, 0, "none", text, [], false⟩
  else
    let cleaned := normalize_text text
    let strategies : List (List Char → ResolutionResult) :=
      [exact_match cat, fuzzy_match cat, phonetic_match dm cat, partial_match cat]
    let best := strategies.foldl
      (fun best strat =>
        let r := strat cleaned
        if r.confidence > best.confidence then r else best)
      ⟨none, 0, "deterministic", text, cleaned, false⟩
    if best.confidence ≥ accept_threshold then { best with needs_confirmation := false }
    else if best.confidence ≥ confirmation_threshold then { best with needs_confirmation := true }
    else { best with needs_confirmation := false }

/-- The trivial phonetic encoder (no code for any input); used to witness
statements that must hold for the program regardless of the external
double-metaphone library. -/
def dmTrivial : PhoneticEncoder := fun _ => ([], [])

/-! ## `resolve.py`: `HeuristicResolver`, `LLMResolver`, `IntentResolver` -/

/-- `ResolutionResult` dataclass of `resolve.py` (no confirmation flag). -/
structure HResolutionResult where
  site : Option (List Char)
  confidence : ℚ
  method : String
  original_text : List Char
  cleaned_text : List Char
deriving DecidableEq, Repr

/-- `HeuristicResolver._normalize_text`: like the deterministic one but with
only the `com/org/net/edu` suffixes and no punctuation removal. -/
def h_normalize_text (text : List Char) : List Char :=
  let n := pyStrip (text.map lowerChar)
  let n := stripDomSuffix "com".toList n
  let n := stripDomSuffix "org".toList n
  let n := stripDomSuffix "net".toList n
  let n := stripDomSuffix "edu".toList n
  pyStrip (collapseWS n)

/-- `HeuristicResolver._exact_match`. -/
def h_exact_match (cat : Catalog) (text : List Char) : HResolutionResult :=
  if (get_all_aliases cat).contains text then
    match findCanonical cat text with
    | some canonical => ⟨some canonical, 1, "heuristic", text, text⟩
    | none => ⟨none, 0, "heuristic", text, text⟩
  else ⟨none, 0, "heuristic", text, text⟩

/-- `HeuristicResolver._fuzzy_match` (fuzzy floor 82). -/
def h_fuzzy_match (cat : Catalog) (text : List Char) : HResolutionResult :=
  match extractOne text (get_all_aliases cat) with
  | none => ⟨none, 0, "heuristic", text, text⟩
  | some (best, score) =>
    if score ≥ 82 then
      match findCanonical cat best with
      | some canonical => ⟨some canonical, score / 100, "heuristic", text, text⟩
      | none => ⟨none, 0, "heuristic", text, text⟩
    else ⟨none, 0, "heuristic", text, text⟩

/-- `HeuristicResolver._phonetic_match` (same loop as the deterministic
resolver, method string `"heuristic"`). -/
def h_phonetic_match (dm : PhoneticEncoder) (cat : Catalog) (text : List Char) :
    HResolutionResult :=
  let best := cat.foldl
    (fun acc p => p.2.foldl (fun acc al => phoneticStep dm text acc p.1 al) acc)
    ((0 : ℚ), (none : Option (List Char)))
  if best.1 ≥ 8/10 then ⟨best.2, best.1, "heuristic", text, text⟩
  else ⟨none, 0, "heuristic", text, text⟩

/-- `HeuristicResolver._partial_match`. -/
def h_partial_match (cat : Catalog) (text : List Char) : HResolutionResult :=
  let words := splitWS text
  let best := cat.foldl
    (fun acc p => p.2.foldl (fun acc al => partialStep words acc p.1 al) acc)
    ((0 : ℚ), (none : Option (List Char)))
  if best.1 ≥ 6/10 then ⟨best.2, best.1, "heuristic", text, text⟩
  else ⟨none, 0, "heuristic", text, text⟩

/-- `HeuristicResolver.resolve_site`: best strategy result over the
normalized text, no threshold policy of its own. -/
def h_resolve_site (dm : PhoneticEncoder) (cat : Catalog) (text : List Char) :
    HResolutionResult :=
  if text.isEmpty then ⟨none, 0, "none", text, []⟩
  else
    let cleaned := h_normalize_text text
    let strategies : List (List Char → HResolutionResult) :=
      [h_exact_match cat, h_fuzzy_match cat, h_phonetic_match dm cat, h_partial_match cat]
    strategies.foldl
      (fun best strat =>
        let r := strat cleaned
        if r.confidence > best.confidence then r else best)
      ⟨none, 0, "heuristic", text, cleaned⟩

/-- `LLMResolver.resolve_site`.  `_call_llm` is a placeholder in the source
that returns the literal mock response `{"site": null, "confidence": 0.0}`,
which `_parse_llm_response` parses to site `None`, confidence `0.0`; so both
the unavailable branch and the available branch produce the null result. -/
def llm_resolve_site (is_available : Bool) (text : List Char) : HResolutionResult :=
  if !is_available then ⟨none, 0, "llm", text, text⟩
  else ⟨none, 0, "llm", text, text⟩

/-- `IntentResolver._resolve_site_name`, parameterized over the LLM
collaborator it escalates to (`self.llm_resolver.resolve_site` in the
source).  The second component records whether the LLM was invoked. -/
def resolve_site_name_with (dm : PhoneticEncoder)
    (llm : List Char → HResolutionResult) (cat : Catalog) (text : List Char) :
    HResolutionResult × Bool :=
  let heuristic_result := h_resolve_site dm cat text
  if heuristic_result.confidence ≥ 82/100 then (heuristic_result, false)
  else if heuristic_result.confidence < 65/100 then
    let llm_result := llm text
    (if llm_result.confidence > heuristic_result.confidence then llm_result
     else heuristic_result, true)
  else (heuristic_result, false)

/-- `IntentResolver._resolve_site_name` as wired in the source: the LLM
collaborator is `LLMResolver.resolve_site`. -/
def resolve_site_name (dm : PhoneticEncoder) (is_available : Bool)
    (cat : Catalog) (text : List Char) : HResolutionResult :=
  (resolve_site_name_with dm (llm_resolve_site is_available) cat text).1

/-! ## `vault/db.py`: `VaultDatabase`

The SQLCipher/Argon2 boundary is modelled at the contract level the source is
written against (see the header comment): a store carries the key it is
encrypted under, reads succeed exactly a when the connection key matches, and
the Argon2id hash record is an idealized collision-free pair of salt and
passphrase.  Timestamps are abstract `ℕ` instants threaded as a `now`
argument (`time.time()` / `CURRENT_TIMESTAMP`). -/

/-- Idealized Argon2id hash record: `PasswordHasher.hash(passphrase)` with a
fresh random salt.  Collision-freeness of the hash is modelled by keeping the
hashed passphrase in the record; `verify` succeeds exactly on it. -/
structure ArgonHash where
  salt : ℕ
  phrase : String
deriving DecidableEq, Repr

/-- `PasswordHasher.hash` with an explicitly threaded salt. -/
def argon_hash (salt : ℕ) (passphrase : String) : ArgonHash :=
  ⟨salt, passphrase⟩

/-- `PasswordHasher.verify(stored, candidate)`: true instead of raising,
false instead of `VerifyMismatchError`. -/
def argon_verify (stored : ArgonHash) (candidate : String) : Bool :=
  stored.phrase == candidate

/-- A value in the `vault_metadata` table: the master hash record, an ISO
timestamp, or any other string. -/
inductive MVal where
  | str (v : String)
  | hsh (v : ArgonHash)
  | time (v : ℕ)
deriving DecidableEq, Repr

/-- `VaultEntry` dataclass / a row of `vault_entries`. -/
structure VaultEntry where
  id : ℕ
  site : String
  username : Option String
  password : String
  memo : Option String
  created_at : ℕ
  updated_at : ℕ
  access_count : ℕ
  last_accessed : Option ℕ
deriving DecidableEq, Repr

/-- The encrypted store file: the key its pages are encrypted under (`none`
for a freshly created store with no pages written yet, readable under any
`PRAGMA key`), the `vault_entries` rows in rowid order, the `vault_metadata`
table, and the `AUTOINCREMENT` counter. -/
structure EncStore where
  key : Option String
  entries : List VaultEntry
  store_meta : List (String × MVal)
  next_id : ℕ
deriving DecidableEq, Repr

/-- A read through a connection opened with `PRAGMA key = k` succeeds
exactly when the store has no key material yet or `k` is its key. -/
def readOK (store : EncStore) (k : String) : Bool :=
  match store.key with
  | none => true
  | some k2 => k2 == k

/-- `SELECT value FROM vault_metadata WHERE key = ?` (first row). -/
def metaLookup (m : List (String × MVal)) (k : String) : Option MVal :=
  (m.find? fun p => p.1 == k).map Prod.snd

/-- `INSERT OR REPLACE INTO vault_metadata`. -/
def metaReplace (m : List (String × MVal)) (k : String) (v : MVal) :
    List (String × MVal) :=
  if m.any (fun p => p.1 == k) then m.map fun p => if p.1 == k then (k, v) else p
  else m ++ [(k, v)]

/-- The mutable fields of a `VaultDatabase` object.  `connection` records
the open handle (`none` when closed), tagged with the passphrase of the
open/unlock attempt that created it; since the keying PRAGMA always raises,
a live handle carries that passphrase only as key material the post-guard
operations would read with, never as an actually applied key.  `master_key`
is the in-memory key material (the Argon2 hash assigned by
`initialize_vault` before its failure; the raw passphrase assigned on a
successful unlock, which is unreachable).  The remaining fields are the
lock flag, the idle timeout and the last-activity instant. -/
structure VaultDB where
  connection : Option String
  is_unlocked : Bool
  master_key : Option MVal
  idle_timeout : ℕ
  last_activity : ℕ
deriving DecidableEq, Repr

/-- A `VaultDatabase` as constructed by `__init__`: no connection, locked,
no key material, 300-second idle timeout. -/
def vaultInit (now : ℕ) : VaultDB :=
  ⟨none, false, none, 300, now⟩

/-- `VaultDatabase.lock_vault`: close the connection, clear the key
material, mark locked. -/
def lock_vault (st : VaultDB) : VaultDB :=
  { st with connection := none, is_unlocked := false, master_key := none,
            last_activity := 0 }

/-- `VaultDatabase._check_auto_lock`: lazily lock when idle for longer than
the timeout. -/
def check_auto_lock (now : ℕ) (st : VaultDB) : VaultDB :=
  if st.is_unlocked && now - st.last_activity > st.idle_timeout then lock_vault st
  else st

/-- `VaultDatabase.initialize_vault`.  Inside the `try`, the source first
assigns `self.master_key = argon2_hasher.hash(master_passphrase)` (line 72)
and `self.connection = sqlite3.connect(self.db_path)` (line 75, creating an
empty file when none exists); then line 78 executes
`"PRAGMA key = ?"` with a bound parameter, which raises
`sqlite3.OperationalError` (PRAGMA statements cannot take parameters), so
`_create_tables` and the unlock assignments of lines 81-90 are never
reached and the `except` handler returns `False`.  The two assignments made
before the raise survive on the object.  There is no existence check, but
also no success path of any kind.  Returns the flag, the new object state
and the on-disk store. -/
def initialize_vault (_now salt : ℕ) (st : VaultDB) (disk : Option EncStore)
    (master_passphrase : String) : Bool × VaultDB × Option EncStore :=
  let mk := argon_hash salt master_passphrase
  -- sqlite3.connect creates an empty store file (no tables, no key material)
  -- when the path does not exist yet; an existing file is left untouched
  let disk2 : EncStore :=
    match disk with
    | none => { key := none, entries := [], store_meta := [], next_id := 1 }
    | some store => store
  (false, { st with master_key := some (.hsh mk),
                    connection := some master_passphrase }, some disk2)

/-- `VaultDatabase.unlock_vault`.  Inside the `try`, line 103 assigns
`self.connection = sqlite3.connect(self.db_path)` (creating an empty file
when none exists); then line 106 executes `"PRAGMA key = ?"` with a bound
parameter, which raises `sqlite3.OperationalError` before the trial read of
`sqlite_master`, before `_get_master_hash`, and before the unlock
assignments of lines 120-125 — so every call returns `False` from the
`except` handler, with the lock flag and `master_key` untouched and only
the connection handle overwritten.  The wrong-key and missing-master-hash
paths of lines 108-118 are dead code. -/
def unlock_vault (_now : ℕ) (st : VaultDB) (disk : Option EncStore)
    (master_passphrase : String) : Bool × VaultDB × Option EncStore :=
  -- sqlite3.connect creates an empty store file when the path is missing;
  -- an existing file is left untouched
  let disk2 : EncStore :=
    match disk with
    | none => { key := none, entries := [], store_meta := [], next_id := 1 }
    | some store => store
  (false, { st with connection := some master_passphrase }, some disk2)

/-- Upsert of `save_password`: update every row with the site, else append
a fresh row. -/
def upsertEntry (now : ℕ) (store : EncStore) (site password : String)
    (username memo : Option String) : EncStore :=
  if store.entries.any (fun e => e.site == site) then
    { store with entries := store.entries.map fun e =>
        if e.site == site then
          { e with password := password, username := username, memo := memo,
                   updated_at := now }
        else e }
  else
    { store with
      entries := store.entries ++
        [{ id := store.next_id, site := site, username := username,
           password := password, memo := memo, created_at := now,
           updated_at := now, access_count := 0, last_accessed := none }],
      next_id := store.next_id + 1 }

/-- `VaultDatabase.save_password`. -/
def save_password (now : ℕ) (st : VaultDB) (disk : Option EncStore)
    (site password : String) (username memo : Option String) :
    Bool × VaultDB × Option EncStore :=
  if !st.is_unlocked then (false, st, disk)
  else
    let st1 := check_auto_lock now st
    if !st1.is_unlocked then (false, st1, disk)
    else
      match st1.connection, disk with
      | some k, some store =>
        if readOK store k then
          (true, { st1 with last_activity := now },
           some (upsertEntry now store site password username memo))
        else (false, st1, some store)
      | _, _ => (false, st1, disk)

/-- `VaultDatabase.retrieve_password`: exact-site lookup of the first
matching row; a hit bumps its access count and last-access time both in the
store and in the returned entry. -/
def retrieve_password (now : ℕ) (st : VaultDB) (disk : Option EncStore)
    (site : String) : Option VaultEntry × VaultDB × Option EncStore :=
  if !st.is_unlocked then (none, st, disk)
  else
    let st1 := check_auto_lock now st
    if !st1.is_unlocked then (none, st1, disk)
    else
      match st1.connection, disk with
      | some k, some store =>
        if readOK store k then
          match store.entries.find? (fun e => e.site == site) with
          | some e =>
            let entries2 := store.entries.map fun x =>
              if x.id == e.id then
                { x with access_count := x.access_count + 1, last_accessed := some now }
              else x
            (some { e with access_count := e.access_count + 1, last_accessed := some now },
             { st1 with last_activity := now }, some { store with entries := entries2 })
          | none => (none, st1, some store)
        else (none, st1, some store)
      | _, _ => (none, st1, disk)

/-- `VaultDatabase.list_entries`: all rows ordered by site. -/
def list_entries (now : ℕ) (st : VaultDB) (disk : Option EncStore) :
    List VaultEntry × VaultDB × Option EncStore :=
  if !st.is_unlocked then ([], st, disk)
  else
    let st1 := check_auto_lock now st
    if !st1.is_unlocked then ([], st1, disk)
    else
      match st1.connection, disk with
      | some k, some store =>
        if readOK store k then
          (store.entries.mergeSort (fun a b => a.site ≤ b.site),
           { st1 with last_activity := now }, some store)
        else ([], st1, some store)
      | _, _ => ([], st1, disk)

/-- `VaultDatabase.delete_entry`. -/
def delete_entry (now : ℕ) (st : VaultDB) (disk : Option EncStore)
    (site : String) : Bool × VaultDB × Option EncStore :=
  if !st.is_unlocked then (false, st, disk)
  else
    let st1 := check_auto_lock now st
    if !st1.is_unlocked then (false, st1, disk)
    else
      match st1.connection, disk with
      | some k, some store =>
        if readOK store k then
          if store.entries.any (fun e => e.site == site) then
            (true, { st1 with last_activity := now },
             some { store with entries := store.entries.filter fun e => !(e.site == site) })
          else (false, st1, some store)
        else (false, st1, some store)
      | _, _ => (false, st1, disk)

/-- SQL `LIKE '%q%'` on an ASCII column value: substring match, ASCII
case-insensitive (SQLite's default LIKE collation). -/
def sqlLike (q v : String) : Bool :=
  isSubstr (q.toList.map lowerChar) (v.toList.map lowerChar)

/-- `VaultDatabase.search_entries`: rows whose site or username matches
`LIKE '%query%'`, ordered by site. -/
def search_entries (now : ℕ) (st : VaultDB) (disk : Option EncStore)
    (query : String) : List VaultEntry × VaultDB × Option EncStore :=
  if !st.is_unlocked then ([], st, disk)
  else
    let st1 := check_auto_lock now st
    if !st1.is_unlocked then ([], st1, disk)
    else
      match st1.connection, disk with
      | some k, some store =>
        if readOK store k then
          ((store.entries.filter fun e =>
              sqlLike query e.site ||
              (match e.username with | some u => sqlLike query u | none => false)).mergeSort
             (fun a b => a.site ≤ b.site),
           { st1 with last_activity := now }, some store)
        else ([], st1, some store)
      | _, _ => ([], st1, disk)

/-- `VaultDatabase.backup_vault`: byte-copy the store file, then record the
backup instant in the live store's metadata.  The fourth component is the
written backup file. -/
def backup_vault (now : ℕ) (st : VaultDB) (disk : Option EncStore) :
    Bool × VaultDB × Option EncStore × Option EncStore :=
  if !st.is_unlocked then (false, st, disk, none)
  else
    let st1 := check_auto_lock now st
    if !st1.is_unlocked then (false, st1, disk, none)
    else
      match st1.connection, disk with
      | some k, some store =>
        -- shutil.copy2 copies the encrypted bytes before the metadata update
        if readOK store k then
          (true, { st1 with last_activity := now },
           some { store with store_meta := metaReplace store.store_meta "last_backup" (.time now) },
           some store)
        else (false, st1, some store, some store)
      | _, _ => (false, st1, disk, none)

/-- `VaultDatabase.change_master_passphrase`: after the lock guard, line
518 re-verifies the old passphrase via `self.unlock_vault(old_passphrase)`
and returns `False` when it fails; only then would it copy the store into a
fresh database keyed by the new passphrase, replace the stored master hash
and reconnect.  Since `unlock_vault` always fails (its keying PRAGMA
raises), the success branch modelled below is dead code, exactly as lines
521-560 of the source are. -/
def change_master_passphrase (now salt : ℕ) (st : VaultDB)
    (disk : Option EncStore) (old_passphrase new_passphrase : String) :
    Bool × VaultDB × Option EncStore :=
  if !st.is_unlocked then (false, st, disk)
  else
    match unlock_vault now st disk old_passphrase with
    | (false, st1, disk1) => (false, st1, disk1)
    | (true, st1, disk1) =>
      match disk1 with
      | none => (false, st1, disk1)
      | some store =>
        let mk := argon_hash salt new_passphrase
        let store2 : EncStore :=
          { key := some new_passphrase, entries := store.entries,
            store_meta := metaReplace store.store_meta "master_hash" (.hsh mk),
            next_id := store.next_id }
        (true, { st1 with connection := some new_passphrase,
                          master_key := some (.hsh mk), last_activity := now },
         some store2)

/-! ## Claim C1: threshold policy of `DeterministicResolver.resolve_site` -/

/-- C1 (amended): for every input, the resolved result obeys the threshold
policy on `needs_confirmation`: confidence at or above the accept threshold
(0.88) means no confirmation; confidence in the confirmation band
[0.75, 0.88) means confirmation is required; confidence below the
confirmation floor (0.75) means no confirmation.  (The claim's final clause,
that the site is `None` below the floor, is refuted by `C1_counterexample`;
the code only clears the confirmation flag and keeps the matched site.) -/
theorem C1_threshold_policy (dm : PhoneticEncoder) (cat : Catalog) (text : List Char) :
    ((resolve_site dm cat text).confidence ≥ accept_threshold →
      (resolve_site dm cat text).needs_confirmation = false) ∧
    (confirmation_threshold ≤ (resolve_site dm cat text).confidence ∧
      (resolve_site dm cat text).confidence < accept_threshold →
      (resolve_site dm cat text).needs_confirmation = true) ∧
    ((resolve_site dm cat text).confidence < confirmation_threshold →
      (resolve_site dm cat text).needs_confirmation = false) := by
  simp only [resolve_site]
  split
  · exact ⟨fun _ => rfl,
      fun h => absurd (by simpa using h.1) (by norm_num [confirmation_threshold]),
      fun _ => rfl⟩
  · have hca : confirmation_threshold ≤ accept_threshold := by
      norm_num [confirmation_threshold, accept_threshold]
    split_ifs with h1 h2
    · exact ⟨fun _ => rfl,
        fun h => absurd (by simpa using h.2) (not_lt.mpr h1),
        fun h => absurd (by simpa using h) (not_lt.mpr (le_trans hca h1))⟩
    · exact ⟨fun h => absurd (by simpa using h) h1, fun _ => rfl,
        fun h => absurd (by simpa using h) (not_lt.mpr h2)⟩
    · exact ⟨fun h => absurd (by simpa using h) h1,
        fun h => absurd (by simpa using h.1) h2, fun _ => rfl⟩

/-- Catalog used in the C1 counterexample: canonical `c` with the single
alias `aa bb zzzz`. -/
def c1_catalog : Catalog := [("c".toList, ["aa bb zzzz".toList])]

/-- Input text for the C1 counterexample: two of three words overlap the
alias, so the partial strategy scores 2/3, while the fuzzy ratio is 60. -/
def c1_text : List Char := "aa bb xxxx".toList

/-- C1 counterexample: the claim's `confidence < 0.75 → site = None` clause
fails.  On `aa bb xxxx` the partial strategy returns site `c` with
confidence 2/3 < 0.75, and `resolve_site` keeps that site (whatever the
phonetic encoder does, instantiated here with the trivial encoder). -/
theorem C1_counterexample :
    ¬ ∀ dm : PhoneticEncoder,
        (resolve_site dm c1_catalog c1_text).confidence < confirmation_threshold →
        (resolve_site dm c1_catalog c1_text).site = none := by
  intro h
  exact absurd (h dmTrivial (by with_unfolding_all decide)) (by with_unfolding_all decide)

/-- Catalog exercising the accept branch of the C1 policy witness. -/
def c1_gmail_catalog : Catalog :=
  [("gmail".toList, ["gmail".toList, "google mail".toList, "googlemail".toList])]

/-- Witness for `C1_threshold_policy` at concrete inputs: an exact match
(confidence 1) is auto-accepted, and a fuzzy match at 2000/2300 lands in the
confirmation band. -/
theorem C1_threshold_policy_witness :
    (resolve_site dmTrivial c1_gmail_catalog "gmail".toList).needs_confirmation = false ∧
    (resolve_site dmTrivial c1_catalog "aa bb cc zzzz".toList).needs_confirmation = true := by
  constructor
  · exact (C1_threshold_policy dmTrivial c1_gmail_catalog "gmail".toList).1
      (by with_unfolding_all decide)
  · exact (C1_threshold_policy dmTrivial c1_catalog "aa bb cc zzzz".toList).2.1
      (by with_unfolding_all decide)


/-- Preservation of a predicate along `List.foldl`. -/
theorem foldl_preserve {α β : Type} (P : β → Prop) (f : β → α → β)
    (l : List α) (init : β) (h0 : P init) (hstep : ∀ b a, P b → P (f b a)) :
    P (l.foldl f init) := by
  induction l generalizing init with
  | nil => exact h0
  | cons x xs ih => exact ih (f init x) (hstep init x h0)

/-! ## Claim C7: the exact-match law -/

/-- Bound of one LCS row step: if the previous row is bounded by `n`, the
new row is bounded by `n + 1`. -/
theorem lcsStep_go_le (c : Char) (n : ℕ) :
    ∀ (bs : List Char) (ps : List ℕ) (diag left : ℕ),
      (∀ x ∈ ps, x ≤ n) → diag ≤ n → left ≤ n + 1 →
      ∀ x ∈ lcsStep.go c bs ps diag left, x ≤ n + 1 := by
  intro bs
  induction bs with
  | nil =>
    intro ps diag left _ _ _ x hx
    simp [lcsStep.go] at hx
  | cons d bs2 ih =>
    intro ps diag left hps hd hl x hx
    cases ps with
    | nil => simp [lcsStep.go] at hx
    | cons p ps2 =>
      rw [lcsStep.go] at hx
      have hhere : (if c = d then diag + 1 else max p left) ≤ n + 1 := by
        split
        · omega
        · have := hps p (List.mem_cons_self p ps2)
          omega
      rcases List.mem_cons.mp hx with hxe | hxm
      · subst hxe; exact hhere
      · exact ih ps2 p _ (fun y hy => hps y (List.mem_cons_of_mem p hy))
          (hps p (List.mem_cons_self p ps2)) hhere x hxm

/-- Row bound through the whole fold: after consuming `a`, every cell is at
most the starting bound plus `|a|`. -/
theorem lcs_fold_le (b : List Char) :
    ∀ (a : List Char) (row : List ℕ) (n : ℕ),
      (∀ x ∈ row, x ≤ n) →
      ∀ x ∈ a.foldl (fun row c => lcsStep c b row) row, x ≤ n + a.length := by
  intro a
  induction a with
  | nil =>
    intro row n h x hx
    simpa using h x hx
  | cons c as ih =>
    intro row n h x hx
    have hstep : ∀ x ∈ lcsStep c b row, x ≤ n + 1 :=
      lcsStep_go_le c n b row 0 0 h (Nat.zero_le n) (Nat.zero_le (n+1))
    have := ih (lcsStep c b row) (n + 1) hstep x hx
    simpa [Nat.add_comm, Nat.add_left_comm, Nat.add_assoc] using this

/-- The LCS length never exceeds the length of the first string. -/
theorem lcsLen_le_left (a b : List Char) : lcsLen a b ≤ a.length := by
  unfold lcsLen
  rcases hg : (a.foldl (fun row c => lcsStep c b row) (List.replicate b.length 0)).getLast? with _ | y
  · simp
  · have hy : y ∈ a.foldl (fun row c => lcsStep c b row) (List.replicate b.length 0) :=
      List.mem_of_mem_getLast? hg
    have := lcs_fold_le b a (List.replicate b.length 0) 0
      (fun x hx => by simpa using (List.eq_of_mem_replicate hx).le) y hy
    simpa [hg] using this

/-- Positional bound on a DP row: the cell at offset `j` from position `i`
is at most `i + j + 1`. -/
def IdxLe : ℕ → List ℕ → Prop
  | _, [] => True
  | i, x :: xs => x ≤ i + 1 ∧ IdxLe (i + 1) xs

/-- The all-zero starting row satisfies the positional bound everywhere. -/
theorem idxLe_replicate (m : ℕ) : ∀ i : ℕ, IdxLe i (List.replicate m 0) := by
  induction m with
  | zero => intro i; trivial
  | succ m ih =>
    intro i
    exact ⟨Nat.zero_le _, ih (i + 1)⟩

/-- One LCS row step preserves the positional bound. -/
theorem lcsStep_go_idx (c : Char) :
    ∀ (bs : List Char) (ps : List ℕ) (i diag left : ℕ),
      IdxLe i ps → diag ≤ i → left ≤ i →
      IdxLe i (lcsStep.go c bs ps diag left) := by
  intro bs
  induction bs with
  | nil =>
    intro ps i diag left _ _ _
    rw [lcsStep.go]
    trivial
  | cons d bs2 ih =>
    intro ps i diag left hps hd hl
    cases ps with
    | nil => rw [lcsStep.go]; trivial
    | cons p ps2 =>
      rw [lcsStep.go]
      have hhere : (if c = d then diag + 1 else max p left) ≤ i + 1 := by
        split
        · omega
        · have := hps.1
          omega
      exact ⟨hhere, ih ps2 (i + 1) p _ hps.2 hps.1 hhere⟩

/-- The positional bound holds for the final DP row. -/
theorem lcs_fold_idx (b : List Char) (a : List Char) :
    IdxLe 0 (a.foldl (fun row c => lcsStep c b row) (List.replicate b.length 0)) := by
  have hgen : ∀ (l : List Char) (row : List ℕ), IdxLe 0 row →
      IdxLe 0 (l.foldl (fun row c => lcsStep c b row) row) := by
    intro l
    induction l with
    | nil => exact fun row h => h
    | cons c cs ih =>
      intro row h
      exact ih (lcsStep c b row) (lcsStep_go_idx c b row 0 0 0 h (Nat.le_refl 0) (Nat.le_refl 0))
  exact hgen a _ (idxLe_replicate b.length 0)

/-- Under the positional bound, the last cell is at most the row length. -/
theorem idxLe_getLast (l : List ℕ) : ∀ i : ℕ, IdxLe i l → l.getLast?.getD 0 ≤ i + l.length := by
  induction l with
  | nil => intro i _; simp
  | cons x xs ih =>
    intro i h
    cases xs with
    | nil =>
      simpa using h.1
    | cons y ys =>
      rw [List.getLast?_cons_cons]
      have := ih (i + 1) h.2
      simpa [Nat.add_comm, Nat.add_left_comm, Nat.add_assoc] using this

/-- A row step never lengthens the row. -/
theorem lcsStep_go_length (c : Char) :
    ∀ (bs : List Char) (ps : List ℕ) (diag left : ℕ),
      (lcsStep.go c bs ps diag left).length ≤ ps.length := by
  intro bs
  induction bs with
  | nil => intro ps diag left; rw [lcsStep.go]; simp
  | cons d bs2 ih =>
    intro ps diag left
    cases ps with
    | nil => rw [lcsStep.go]
    | cons p ps2 =>
      rw [lcsStep.go]
      simpa using ih ps2 p _

/-- The final DP row is no longer than `b`. -/
theorem lcs_fold_length (b : List Char) (a : List Char) :
    (a.foldl (fun row c => lcsStep c b row) (List.replicate b.length 0)).length ≤ b.length := by
  have hgen : ∀ (l : List Char) (row : List ℕ),
      (l.foldl (fun row c => lcsStep c b row) row).length ≤ row.length := by
    intro l
    induction l with
    | nil => exact fun row => Nat.le_refl _
    | cons c cs ih =>
      intro row
      exact Nat.le_trans (ih (lcsStep c b row)) (lcsStep_go_length c b row 0 0)
  simpa using hgen a (List.replicate b.length 0)

/-- The LCS length never exceeds the length of the second string. -/
theorem lcsLen_le_right (a b : List Char) : lcsLen a b ≤ b.length := by
  unfold lcsLen
  have h1 := idxLe_getLast _ 0 (lcs_fold_idx b a)
  have h2 := lcs_fold_length b a
  omega

/-- The fuzzy similarity ratio is at most 100. -/
theorem ratioScore_le (a b : List Char) : ratioScore a b ≤ 100 := by
  unfold ratioScore
  split
  · exact le_refl _
  · rename_i hne
    have h1 := lcsLen_le_left a b
    have h2 := lcsLen_le_right a b
    have hpos : (0 : ℚ) < (a.length : ℚ) + (b.length : ℚ) := by
      have : 0 < a.length + b.length := Nat.pos_of_ne_zero hne
      exact_mod_cast this
    rw [div_le_iff₀ hpos]
    have hcast : ((2 * lcsLen a b : ℕ) : ℚ) ≤ ((a.length + b.length : ℕ) : ℚ) := by
      exact_mod_cast (by omega : 2 * lcsLen a b ≤ a.length + b.length)
    push_cast at hcast ⊢
    nlinarith

/-- The score reported by `extractOne` is a fuzzy ratio, hence at most
100. -/
theorem extractOne_score_le (q : List Char) (choices : List (List Char))
    (b : List Char) (s : ℚ) (h : extractOne q choices = some (b, s)) : s ≤ 100 := by
  have hfold := foldl_preserve
    (fun o : Option (List Char × ℚ) => ∀ b2 s2, o = some (b2, s2) → s2 ≤ 100)
    (fun best c =>
      let s := ratioScore q c
      match best with
      | none => some (c, s)
      | some (b, bs) => if s > bs then some (c, s) else some (b, bs))
    choices none (fun _ _ h2 => by cases h2)
    (fun o c ho => by
      match o with
      | none =>
        intro b2 s2 h2
        simp only at h2
        cases h2
        exact ratioScore_le q c
      | some (b0, s0) =>
        intro b2 s2 h2
        simp only at h2
        split at h2
        · cases h2
          exact ratioScore_le q c
        · cases h2
          exact ho b0 s0 rfl)
  exact hfold b s h

/-- The fuzzy strategy never reports confidence above 1. -/
theorem fuzzy_match_conf_le (cat : Catalog) (t : List Char) :
    (fuzzy_match cat t).confidence ≤ 1 := by
  unfold fuzzy_match
  split
  · norm_num
  · rename_i b s hmatch
    split
    · split
      · rename_i hs _ _
        have := extractOne_score_le t (get_all_aliases cat) b s hmatch
        simp only
        rw [div_le_one (by norm_num : (0:ℚ) < 100)]
        exact this
      · norm_num
    · norm_num

/-- A phonetic candidate step keeps the best score at most 9/10. -/
theorem phoneticStep_le (dm : PhoneticEncoder) (t : List Char)
    (acc : ℚ × Option (List Char)) (c a : List Char) (h : acc.1 ≤ 9/10) :
    (phoneticStep dm t acc c a).1 ≤ 9/10 := by
  unfold phoneticStep
  dsimp only
  repeat' split
  all_goals first | exact h | norm_num

/-- The phonetic strategy never reports confidence above 9/10, for every
encoder. -/
theorem phonetic_match_conf_le (dm : PhoneticEncoder) (cat : Catalog) (t : List Char) :
    (phonetic_match dm cat t).confidence ≤ 9/10 := by
  have hfold := foldl_preserve (fun acc : ℚ × Option (List Char) => acc.1 ≤ 9/10)
    (fun acc p => p.2.foldl (fun acc al => phoneticStep dm t acc p.1 al) acc)
    cat ((0 : ℚ), (none : Option (List Char))) (by norm_num)
    (fun b p hb => foldl_preserve _ _ p.2 b hb
      (fun b2 a2 hb2 => phoneticStep_le dm t b2 p.1 a2 hb2))
  unfold phonetic_match
  dsimp only
  split
  · exact hfold
  · norm_num

/-- A partial candidate step keeps the best score at most 1. -/
theorem partialStep_le (words : List (List Char)) (acc : ℚ × Option (List Char))
    (c a : List Char) (h : acc.1 ≤ 1) : (partialStep words acc c a).1 ≤ 1 := by
  unfold partialStep
  dsimp only
  split
  · rename_i hm
    split
    · have hle : partialMatches words (splitWS a) ≤ words.length :=
        List.length_filter_le _ words
      have hmaxpos : (0 : ℚ) < (max words.length (splitWS a).length : ℕ) := by
        have : 0 < max words.length (splitWS a).length := by
          unfold partialMatches at hm
          have hlen := List.length_filter_le
            (fun w => (splitWS a).any fun aw => isSubstr w aw || isSubstr aw w) words
          have := Nat.le_max_left words.length (splitWS a).length
          omega
        exact_mod_cast this
      simp only
      rw [div_le_one hmaxpos]
      have : partialMatches words (splitWS a) ≤ max words.length (splitWS a).length :=
        le_trans hle (Nat.le_max_left _ _)
      exact_mod_cast this
    · exact h
  · exact h

/-- The partial strategy never reports confidence above 1. -/
theorem partial_match_conf_le (cat : Catalog) (t : List Char) :
    (partial_match cat t).confidence ≤ 1 := by
  have hfold := foldl_preserve (fun acc : ℚ × Option (List Char) => acc.1 ≤ 1)
    (fun acc p => p.2.foldl (fun acc al => partialStep (splitWS t) acc p.1 al) acc)
    cat ((0 : ℚ), (none : Option (List Char))) (by norm_num)
    (fun b p hb => foldl_preserve _ _ p.2 b hb
      (fun b2 a2 hb2 => partialStep_le (splitWS t) b2 p.1 a2 hb2))
  unfold partial_match
  dsimp only
  split
  · exact hfold
  · norm_num

/-- When `a` is an alias of `c` and of no other canonical, the catalog scan
finds `c` first. -/
theorem findCanonical_unique (cat : Catalog) (a c : List Char)
    (hmem : ∃ al, (c, al) ∈ cat ∧ a ∈ al)
    (huniq : ∀ c2 al2, (c2, al2) ∈ cat → a ∈ al2 → c2 = c) :
    findCanonical cat a = some c := by
  induction cat with
  | nil =>
    obtain ⟨al, h, _⟩ := hmem
    exact absurd h (List.not_mem_nil _)
  | cons p rest ih =>
    by_cases hc : p.2.contains a = true
    · have hfc : findCanonical (p :: rest) a = some p.1 := by
        unfold findCanonical
        simp only [List.find?_cons, hc]
        rfl
      rw [hfc, huniq p.1 p.2 (by simp) (List.elem_iff.mp hc)]
    · have hfc : findCanonical (p :: rest) a = findCanonical rest a := by
        unfold findCanonical
        have hcf : p.2.contains a = false := by simpa using hc
        simp only [List.find?_cons, hcf]
      rw [hfc]
      apply ih
      · obtain ⟨al, hin, ha⟩ := hmem
        rcases List.mem_cons.mp hin with heq | htail
        · exfalso
          apply hc
          have hal : al = p.2 := by rw [← heq]
          exact List.elem_iff.mpr (hal ▸ ha)
        · exact ⟨al, htail, ha⟩
      · exact fun c2 al2 h2 ha2 => huniq c2 al2 (List.mem_cons_of_mem p h2) ha2

/-- C7 (amended): for every alias `a` that is nonempty, fixed by text
normalization, and registered only under the canonical name `c`, resolving
`a` yields site `c` with confidence 1 and no confirmation needed, for every
phonetic encoder.  (Aliases that normalization rewrites — punctuation,
domain suffixes, uppercase — escape the exact matcher; see
`C7_counterexample`.) -/
theorem C7_exact_alias_law (dm : PhoneticEncoder) (cat : Catalog) (a c : List Char)
    (hne : a.isEmpty = false)
    (hnorm : normalize_text a = a)
    (hmem : ∃ al, (c, al) ∈ cat ∧ a ∈ al)
    (huniq : ∀ c2 al2, (c2, al2) ∈ cat → a ∈ al2 → c2 = c) :
    (resolve_site dm cat a).site = some c ∧
    (resolve_site dm cat a).confidence = 1 ∧
    (resolve_site dm cat a).needs_confirmation = false := by
  have hcontains : (get_all_aliases cat).contains a = true := by
    obtain ⟨al, hin, ha⟩ := hmem
    exact List.elem_iff.mpr
      (List.mem_flatten.mpr ⟨al, List.mem_map_of_mem Prod.snd hin, ha⟩)
  have hexact : exact_match cat a = ⟨some c, 1, "exact_match", a, a, false⟩ := by
    unfold exact_match
    rw [if_pos hcontains, findCanonical_unique cat a c hmem huniq]
  have hpos1 : (exact_match cat a).confidence >
      (⟨none, 0, "deterministic", a, a, false⟩ : ResolutionResult).confidence := by
    rw [hexact]
    exact one_pos
  have hb1 : ¬ ((fuzzy_match cat a).confidence > (exact_match cat a).confidence) := by
    rw [hexact]
    exact not_lt.mpr (fuzzy_match_conf_le cat a)
  have hb2 : ¬ ((phonetic_match dm cat a).confidence > (exact_match cat a).confidence) := by
    rw [hexact]
    exact not_lt.mpr (le_trans (phonetic_match_conf_le dm cat a) (by norm_num))
  have hb3 : ¬ ((partial_match cat a).confidence > (exact_match cat a).confidence) := by
    rw [hexact]
    exact not_lt.mpr (partial_match_conf_le cat a)
  have hacc : (exact_match cat a).confidence ≥ accept_threshold := by
    rw [hexact]
    norm_num [accept_threshold]
  simp only [resolve_site, hne, Bool.false_eq_true, if_false]
  rw [hnorm]
  simp only [List.foldl]
  rw [if_pos hpos1, if_neg hb1, if_neg hb2, if_neg hb3, if_pos hacc, hexact]
  exact ⟨rfl, rfl, rfl⟩

/-- Catalog for the C7 counterexample: the alias contains the punctuation
word `&`, which normalization deletes. -/
def c7_catalog : Catalog := [("c".toList, ["a & b c d".toList])]

/-- C7 counterexample: the alias `a & b c d` is registered only under `c`,
but resolving it normalizes the text to `a b c d`, the exact matcher misses,
and the best strategy is a fuzzy match at 7/8 — not confidence 1.0 as the
exact-match law demands (shown at the trivial phonetic encoder; no encoder
can reach 1.0 either, phonetic scores are capped at 0.9). -/
theorem C7_counterexample :
    ¬ ∀ dm : PhoneticEncoder,
        (resolve_site dm c7_catalog ("a & b c d".toList)).site = some ("c".toList) ∧
        (resolve_site dm c7_catalog ("a & b c d".toList)).confidence = 1 := by
  intro h
  exact absurd (h dmTrivial).2 (by with_unfolding_all decide)

/-- Catalog for the C7 witness. -/
def c7_witness_catalog : Catalog := [("gmail".toList, ["gmail".toList])]

/-- Witness for `C7_exact_alias_law`: the normal-form alias `gmail` resolves
to its canonical name with confidence 1. -/
theorem C7_witness :
    (resolve_site dmTrivial c7_witness_catalog "gmail".toList).site = some ("gmail".toList) ∧
    (resolve_site dmTrivial c7_witness_catalog "gmail".toList).confidence = 1 := by
  have h := C7_exact_alias_law dmTrivial c7_witness_catalog
    ("gmail".toList) ("gmail".toList)
    (by with_unfolding_all decide) (by with_unfolding_all decide)
    ⟨["gmail".toList], List.mem_cons_self _ _, List.mem_cons_self _ _⟩
    (by
      intro c2 al2 h2 _
      rcases List.mem_cons.mp h2 with heq | habs
      · exact congrArg Prod.fst heq
      · exact absurd habs (List.not_mem_nil _))
  exact ⟨h.1, h.2.1⟩

/-! ## Claim C8: LLM escalation policy of `IntentResolver._resolve_site_name` -/

/-- C8 (amended): the resolver invokes the LLM collaborator exactly when the
heuristic confidence is below 0.65 (not below the 0.82 threshold the spec
names), and then the LLM result replaces the heuristic result exactly when
its confidence strictly exceeds the heuristic's; at heuristic confidence
0.65 or above the LLM is never invoked and the heuristic result is
returned. -/
theorem C8_llm_escalation (dm : PhoneticEncoder)
    (llm : List Char → HResolutionResult) (cat : Catalog) (text : List Char) :
    ((h_resolve_site dm cat text).confidence < 65/100 →
      (resolve_site_name_with dm llm cat text).2 = true ∧
      (resolve_site_name_with dm llm cat text).1 =
        (if (llm text).confidence > (h_resolve_site dm cat text).confidence then llm text
         else h_resolve_site dm cat text)) ∧
    (65/100 ≤ (h_resolve_site dm cat text).confidence →
      (resolve_site_name_with dm llm cat text).2 = false ∧
      (resolve_site_name_with dm llm cat text).1 = h_resolve_site dm cat text) := by
  constructor
  · intro h
    have h1 : ¬ (h_resolve_site dm cat text).confidence ≥ 82/100 :=
      not_le.mpr (lt_of_lt_of_le h (by norm_num))
    simp only [resolve_site_name_with, if_neg h1, if_pos h]
    exact ⟨by trivial, by trivial⟩
  · intro h
    by_cases h1 : (h_resolve_site dm cat text).confidence ≥ 82/100
    · simp only [resolve_site_name_with, if_pos h1]
      exact ⟨by trivial, by trivial⟩
    · have h2 : ¬ (h_resolve_site dm cat text).confidence < 65/100 := not_lt.mpr h
      simp only [resolve_site_name_with, if_neg h1, if_neg h2]
      exact ⟨by trivial, by trivial⟩

/-- Catalog for the C8 counterexample. -/
def c8_catalog : Catalog := [("c".toList, ["aa bb zzzz".toList])]

/-- Text for the C8 counterexample: heuristic confidence 2/3, which is below
0.82 but not below 0.65. -/
def c8_text : List Char := "aa bb xxxx".toList

/-- C8 counterexample: with heuristic confidence 2/3 < 0.82 the claim says
the LLM collaborator is invoked, but `_resolve_site_name` does not invoke it
(its escalation cutoff is 0.65), for any collaborator. -/
theorem C8_counterexample :
    ¬ ∀ llm : List Char → HResolutionResult,
        (h_resolve_site dmTrivial c8_catalog c8_text).confidence < llm_threshold →
        (resolve_site_name_with dmTrivial llm c8_catalog c8_text).2 = true := by
  intro h
  exact absurd (h (fun t => ⟨none, 0, "llm", t, t⟩) (by with_unfolding_all decide))
    (by with_unfolding_all decide)

/-- A stub LLM collaborator answering site `x` with confidence 1/2. -/
def c8_llm_stub : List Char → HResolutionResult :=
  fun t => ⟨some ("x".toList), 1/2, "llm", t, t⟩

/-- Witness for `C8_llm_escalation`: on an empty catalog the heuristic
confidence is 0 < 0.65, so the LLM is invoked. -/
theorem C8_llm_escalation_witness :
    (resolve_site_name_with dmTrivial c8_llm_stub [] "zz".toList).2 = true :=
  ((C8_llm_escalation dmTrivial c8_llm_stub [] "zz".toList).1
    (by with_unfolding_all decide)).1

/-! ## Claim C10: `unlock_vault` with no stored master hash -/

/-- C10 counterexample: a store whose key material matches the supplied
passphrase and whose metadata has no `master_hash` row still does not
unlock — `unlock_vault` returns false and the vault stays locked, because
the keying PRAGMA raises before the trial read and `_get_master_hash` are
ever reached. -/
theorem C10_counterexample :
    readOK ⟨some "k", [], [], 1⟩ "k" = true ∧
    metaLookup (⟨some "k", [], [], 1⟩ : EncStore).store_meta "master_hash" = none ∧
    (unlock_vault 5 (vaultInit 0) (some ⟨some "k", [], [], 1⟩) "k").1 = false ∧
    (unlock_vault 5 (vaultInit 0) (some ⟨some "k", [], [], 1⟩) "k").2.1.is_unlocked
      = false := by
  with_unfolding_all decide

/-- C10 (amended): `unlock_vault` never succeeds, for any vault object,
store and passphrase: the bound-parameter `PRAGMA key = ?` raises
`OperationalError` inside the `try` before the trial read, the master-hash
lookup and the unlock assignments, so the call returns false, leaves the
lock flag and the in-memory key material untouched, and only overwrites the
connection handle.  In particular the master-hash plausibility check is
dead code — not because it is skipped on a missing hash, but because
execution never gets that far. -/
theorem C10_unlock_never_succeeds (now : ℕ) (st : VaultDB)
    (disk : Option EncStore) (pass : String) :
    (unlock_vault now st disk pass).1 = false ∧
    (unlock_vault now st disk pass).2.1.is_unlocked = st.is_unlocked ∧
    (unlock_vault now st disk pass).2.1.master_key = st.master_key ∧
    (unlock_vault now st disk pass).2.1.connection = some pass := by
  cases disk <;> exact ⟨rfl, rfl, rfl, rfl⟩

/-! ## Claim C2: every operation on a locked or uninitialized vault fails -/

/-- C2: with the vault locked (or never initialized), save, retrieve, list,
delete, search, backup and passphrase change all return their failure value
(the "vault locked" condition) without touching the object state or the
stored entry set; and `lock_vault` always leaves the vault locked, so the
same holds immediately after `lock()`. -/
theorem C2_locked_operations_fail (now salt : ℕ) (st st2 : VaultDB)
    (disk : Option EncStore) (site pw query oldp newp : String)
    (username memo : Option String) (h : st.is_unlocked = false) :
    save_password now st disk site pw username memo = (false, st, disk) ∧
    retrieve_password now st disk site = (none, st, disk) ∧
    list_entries now st disk = ([], st, disk) ∧
    delete_entry now st disk site = (false, st, disk) ∧
    search_entries now st disk query = ([], st, disk) ∧
    backup_vault now st disk = (false, st, disk, none) ∧
    change_master_passphrase now salt st disk oldp newp = (false, st, disk) ∧
    (lock_vault st2).is_unlocked = false := by
  refine ⟨?_, ?_, ?_, ?_, ?_, ?_, ?_, rfl⟩ <;>
    simp [save_password, retrieve_password, list_entries, delete_entry,
      search_entries, backup_vault, change_master_passphrase, h]

/-- Witness for `C2_locked_operations_fail` on the freshly constructed
(uninitialized, hence locked) vault object. -/
theorem C2_witness :
    save_password 1 (vaultInit 0) none "s" "p" none none = (false, vaultInit 0, none) ∧
    retrieve_password 1 (vaultInit 0) none "s" = (none, vaultInit 0, none) :=
  ⟨(C2_locked_operations_fail 1 0 (vaultInit 0) (vaultInit 0) none "s" "p" "q" "o" "n"
      none none rfl).1,
   (C2_locked_operations_fail 1 0 (vaultInit 0) (vaultInit 0) none "s" "p" "q" "o" "n"
      none none rfl).2.1⟩

/-! ## Claim C3: `unlock_vault` with a wrong passphrase -/

/-- Store for the C3 counterexample: encrypted under `right` with the
matching master hash stored. -/
def c3_store : EncStore :=
  ⟨some "right", [], [("master_hash", .hsh (argon_hash 0 "right"))], 1⟩

/-- A locked vault object (as left by `lock_vault`). -/
def c3_locked : VaultDB := ⟨none, false, none, 300, 0⟩

/-- C3 counterexample: unlocking with a wrong passphrase returns false, but
the vault object is NOT left unchanged — the `connection` field is
overwritten with the freshly opened (useless) connection handle before the
keying PRAGMA raises, so the claim's "no partial state changes to the vault
object" part fails. -/
theorem C3_counterexample :
    (unlock_vault 7 c3_locked (some c3_store) "wrong").1 = false ∧
    (unlock_vault 7 c3_locked (some c3_store) "wrong").2.1 ≠ c3_locked := by
  with_unfolding_all decide

/-- C3 (amended): unlocking a locked vault (whose store is encrypted under
a different passphrase) returns false and never reaches the unlocked state:
the lock flag stays down, no key material is retained, the store is
untouched — but the `connection` field is overwritten with the new dangling
handle. -/
theorem C3_wrong_passphrase_no_unlock (now : ℕ) (st : VaultDB)
    (store : EncStore) (realp pass : String) (_hkey : store.key = some realp)
    (_hne : pass ≠ realp) (hlocked : st.is_unlocked = false)
    (hmk : st.master_key = none) :
    (unlock_vault now st (some store) pass).1 = false ∧
    (unlock_vault now st (some store) pass).2.1.is_unlocked = false ∧
    (unlock_vault now st (some store) pass).2.1.master_key = none ∧
    (unlock_vault now st (some store) pass).2.1.connection = some pass ∧
    (unlock_vault now st (some store) pass).2.2 = some store :=
  -- the failure no longer even depends on the key mismatch: the keying
  -- PRAGMA raises for the right passphrase too
  ⟨rfl, hlocked, hmk, rfl, rfl⟩

/-- Witness for `C3_wrong_passphrase_no_unlock` on the concrete locked
vault and store. -/
theorem C3_witness :
    (unlock_vault 7 c3_locked (some c3_store) "wrong").2.1.is_unlocked = false ∧
    (unlock_vault 7 c3_locked (some c3_store) "wrong").2.1.connection = some "wrong" :=
  ⟨(C3_wrong_passphrase_no_unlock 7 c3_locked c3_store "right" "wrong" rfl
      (by with_unfolding_all decide) rfl rfl).2.1,
   (C3_wrong_passphrase_no_unlock 7 c3_locked c3_store "right" "wrong" rfl
      (by with_unfolding_all decide) rfl rfl).2.2.2.1⟩

/-! ## Claim C5: save/retrieve round trip on an unlocked vault -/

/-- Upserting never changes the store's encryption key. -/
theorem upsertEntry_key (now : ℕ) (store : EncStore) (site pw : String)
    (username memo : Option String) :
    (upsertEntry now store site pw username memo).key = store.key := by
  unfold upsertEntry
  split <;> rfl

/-- After an upsert, the first row with the saved site exists and carries
the saved password. -/
theorem upsertEntry_find_site (now : ℕ) (store : EncStore) (site pw : String)
    (username memo : Option String) :
    ∃ e, (upsertEntry now store site pw username memo).entries.find?
        (fun x => x.site == site) = some e ∧ e.password = pw := by
  unfold upsertEntry
  split
  · rename_i hany
    rw [List.any_eq_true] at hany
    obtain ⟨x0, hx0mem, hx0⟩ := hany
    have hsome : (store.entries.find? (fun x => x.site == site)).isSome :=
      List.find?_isSome.mpr ⟨x0, hx0mem, hx0⟩
    obtain ⟨e0, he0⟩ := Option.isSome_iff_exists.mp hsome
    have hpe0 := List.find?_some he0
    simp only at hpe0
    have hsitekeep : ∀ x : VaultEntry,
        ((if x.site == site then
            { x with password := pw, username := username, memo := memo,
                     updated_at := now } else x) : VaultEntry).site = x.site := by
      intro x
      split <;> rfl
    have hcomp :
        ((fun x : VaultEntry => x.site == site) ∘
          (fun x : VaultEntry =>
            if x.site == site then
              { x with password := pw, username := username, memo := memo,
                       updated_at := now } else x)) =
        fun x : VaultEntry => x.site == site := by
      funext x
      simp only [Function.comp_apply, hsitekeep]
    refine ⟨_, by rw [List.find?_map, hcomp, he0]; rfl, ?_⟩
    simp [hpe0]
  · rename_i hany
    refine ⟨{ id := store.next_id, site := site, username := username,
              password := pw, memo := memo, created_at := now, updated_at := now,
              access_count := 0, last_accessed := none }, ?_, rfl⟩
    have hnone : store.entries.find? (fun x => x.site == site) = none := by
      rw [List.find?_eq_none]
      intro x hx hpx
      exact hany (List.any_eq_true.mpr ⟨x, hx, hpx⟩)
    rw [List.find?_append, hnone, Option.none_or]
    simp

/-- After an upsert for `site`, a different site that had no row still has
no row. -/
theorem upsertEntry_find_other (now : ℕ) (store : EncStore)
    (site pw s2 : String) (username memo : Option String) (hs2 : s2 ≠ site)
    (hnone : store.entries.find? (fun x => x.site == s2) = none) :
    (upsertEntry now store site pw username memo).entries.find?
      (fun x => x.site == s2) = none := by
  unfold upsertEntry
  split
  · have hcomp :
        ((fun x : VaultEntry => x.site == s2) ∘
          (fun x : VaultEntry =>
            if x.site == site then
              { x with password := pw, username := username, memo := memo,
                       updated_at := now } else x)) =
        fun x : VaultEntry => x.site == s2 := by
      funext x
      simp only [Function.comp_apply]
      congr 1
      split <;> rfl
    rw [List.find?_map, hcomp, hnone]
    rfl
  · rw [List.find?_append, hnone, Option.none_or]
    have : ((s2 : String) == s2) = true := beq_self_eq_true s2
    simp [beq_eq_false_iff_ne.mpr fun hh : site = s2 => hs2 hh.symm]

/-- Behaviour of `save_password` on an unlocked, in-timeout vault whose
connection decrypts the store: it reports success, touches the activity
instant and upserts the row. -/
theorem save_password_unlocked (now : ℕ) (st : VaultDB) (store : EncStore)
    (k site pw : String) (username memo : Option String)
    (hunlock : st.is_unlocked = true) (hconn : st.connection = some k)
    (hread : readOK store k = true)
    (hidle : ¬ now - st.last_activity > st.idle_timeout) :
    save_password now st (some store) site pw username memo =
      (true, { st with last_activity := now },
       some (upsertEntry now store site pw username memo)) := by
  unfold save_password check_auto_lock
  simp [hunlock, hconn, hread, hidle]

/-- Behaviour of `retrieve_password` on a hit: the matching row is returned
with its access count bumped and access time set. -/
theorem retrieve_password_found (now : ℕ) (st : VaultDB) (store : EncStore)
    (k site : String) (e : VaultEntry)
    (hunlock : st.is_unlocked = true) (hconn : st.connection = some k)
    (hread : readOK store k = true)
    (hidle : ¬ now - st.last_activity > st.idle_timeout)
    (hfind : store.entries.find? (fun x => x.site == site) = some e) :
    (retrieve_password now st (some store) site).1 =
      some { e with access_count := e.access_count + 1,
                    last_accessed := some now } := by
  unfold retrieve_password check_auto_lock
  simp [hunlock, hconn, hread, hidle, hfind]

/-- Behaviour of `retrieve_password` on a miss: `none`, not an error. -/
theorem retrieve_password_missing (now : ℕ) (st : VaultDB) (store : EncStore)
    (k site : String)
    (hunlock : st.is_unlocked = true) (hconn : st.connection = some k)
    (hread : readOK store k = true)
    (hidle : ¬ now - st.last_activity > st.idle_timeout)
    (hfind : store.entries.find? (fun x => x.site == site) = none) :
    (retrieve_password now st (some store) site).1 = none := by
  unfold retrieve_password check_auto_lock
  simp [hunlock, hconn, hread, hidle, hfind]

/-- C5: on an unlocked vault (within the idle timeout, with a connection
that decrypts the store), `save(site, pw)` succeeds and an immediate
`retrieve(site)` returns an entry whose password is `pw`; retrieving a site
that has no row (and is not the one just saved) yields the not-found value
`none` rather than an error. -/
theorem C5_save_retrieve_roundtrip (now now2 : ℕ) (st : VaultDB)
    (store : EncStore) (k site pw s2 : String) (username memo : Option String)
    (hunlock : st.is_unlocked = true) (hconn : st.connection = some k)
    (hread : readOK store k = true)
    (hidle : now - st.last_activity ≤ st.idle_timeout)
    (hidle2 : now2 - now ≤ st.idle_timeout) :
    (save_password now st (some store) site pw username memo).1 = true ∧
    ((retrieve_password now2
        (save_password now st (some store) site pw username memo).2.1
        (save_password now st (some store) site pw username memo).2.2
        site).1.map (fun e => e.password)) = some pw ∧
    ((store.entries.all fun e => !(e.site == s2)) = true → s2 ≠ site →
      (retrieve_password now2
        (save_password now st (some store) site pw username memo).2.1
        (save_password now st (some store) site pw username memo).2.2
        s2).1 = none) := by
  have hsave := save_password_unlocked now st store k site pw username memo
    hunlock hconn hread (not_lt.mpr hidle)
  have hread2 : readOK (upsertEntry now store site pw username memo) k = true := by
    unfold readOK at hread ⊢
    rw [upsertEntry_key]
    exact hread
  have hidle2n : ¬ now2 - ({ st with last_activity := now } : VaultDB).last_activity >
      ({ st with last_activity := now } : VaultDB).idle_timeout := not_lt.mpr hidle2
  obtain ⟨e, hfind, hpw⟩ := upsertEntry_find_site now store site pw username memo
  refine ⟨by rw [hsave], ?_, ?_⟩
  · rw [hsave]
    rw [retrieve_password_found now2 { st with last_activity := now }
      (upsertEntry now store site pw username memo) k site e hunlock hconn hread2
      hidle2n hfind]
    simp [hpw]
  · intro hall hs2
    have hnone : store.entries.find? (fun x => x.site == s2) = none := by
      rw [List.find?_eq_none]
      intro x hx
      have := List.all_eq_true.mp hall x hx
      simp only [Bool.not_eq_true'] at this
      simp [this]
    rw [hsave]
    exact retrieve_password_missing now2 { st with last_activity := now }
      (upsertEntry now store site pw username memo) k s2 hunlock hconn hread2
      hidle2n (upsertEntry_find_other now store site pw s2 username memo hs2 hnone)

/-- Witness for `C5_save_retrieve_roundtrip` on a concrete unlocked vault:
saving `gmail` and retrieving it returns the saved password, and retrieving
the never-saved `other` site returns `none`. -/
theorem C5_witness :
    ((retrieve_password 2
        (save_password 1 ⟨some "k", true, none, 300, 0⟩ (some ⟨some "k", [], [], 1⟩)
          "gmail" "hunter2" none none).2.1
        (save_password 1 ⟨some "k", true, none, 300, 0⟩ (some ⟨some "k", [], [], 1⟩)
          "gmail" "hunter2" none none).2.2
        "gmail").1.map (fun e => e.password)) = some "hunter2" ∧
    (retrieve_password 2
        (save_password 1 ⟨some "k", true, none, 300, 0⟩ (some ⟨some "k", [], [], 1⟩)
          "gmail" "hunter2" none none).2.1
        (save_password 1 ⟨some "k", true, none, 300, 0⟩ (some ⟨some "k", [], [], 1⟩)
          "gmail" "hunter2" none none).2.2
        "other").1 = none :=
  ⟨(C5_save_retrieve_roundtrip 1 2 ⟨some "k", true, none, 300, 0⟩ ⟨some "k", [], [], 1⟩
      "k" "gmail" "hunter2" "other" none none rfl rfl (by with_unfolding_all decide)
      (by with_unfolding_all decide) (by with_unfolding_all decide)).2.1,
   (C5_save_retrieve_roundtrip 1 2 ⟨some "k", true, none, 300, 0⟩ ⟨some "k", [], [], 1⟩
      "k" "gmail" "hunter2" "other" none none rfl rfl (by with_unfolding_all decide)
      (by with_unfolding_all decide) (by with_unfolding_all decide)).2.2
      (by with_unfolding_all decide) (by with_unfolding_all decide)⟩

/-! ## Claim C6: `initialize_vault` and pre-existing stores -/

/-- C6 (code bug): `initialize_vault` never succeeds at all — the
bound-parameter `PRAGMA key = ?` of line 78 raises `OperationalError`
before `_create_tables` runs, so the call returns false on every input.
The spec's first-time-setup success path (deriving the hash, opening an
empty encrypted store, persisting the hash as metadata) does not exist in
the program: with a store present the store is left exactly as it was and
the vault stays in its previous lock state; with no store present only an
empty unkeyed store file — no tables, no `master_hash` row — is created.
(The claim's "fails whenever a store already exists" clause holds only
because everything fails; there is still no existence check anywhere.) -/
theorem C6_initialize_always_fails (now salt : ℕ) (st : VaultDB)
    (store : EncStore) (pass : String) :
    (initialize_vault now salt st (some store) pass).1 = false ∧
    (initialize_vault now salt st (some store) pass).2.2 = some store ∧
    (initialize_vault now salt st (some store) pass).2.1.is_unlocked
      = st.is_unlocked ∧
    (initialize_vault now salt st none pass).1 = false ∧
    (initialize_vault now salt st none pass).2.1.is_unlocked = st.is_unlocked ∧
    (initialize_vault now salt st none pass).2.2
      = some ⟨none, [], [], 1⟩ :=
  ⟨rfl, rfl, rfl, rfl, rfl, rfl⟩

/-! ## Claim C4: null site implies zero confidence -/

/-- Invariant of claim C4 on a `resolve.py` result: a null site implies
zero confidence. -/
def NullZero (r : HResolutionResult) : Prop :=
  r.site = none → r.confidence = 0

/-- A phonetic candidate step either keeps the accumulator or installs a
definite site with its score. -/
theorem phoneticStep_cases (dm : PhoneticEncoder) (t : List Char)
    (acc : ℚ × Option (List Char)) (c a : List Char) :
    phoneticStep dm t acc c a = acc ∨
    ∃ q, phoneticStep dm t acc c a = (q, some c) := by
  unfold phoneticStep
  dsimp only
  repeat' split
  all_goals first | exact Or.inl rfl | exact Or.inr ⟨_, rfl⟩

/-- One phonetic candidate step preserves the C4 invariant on the running
best score and site. -/
theorem phoneticStep_nullzero (dm : PhoneticEncoder) (t : List Char)
    (acc : ℚ × Option (List Char)) (c a : List Char)
    (h : acc.2 = none → acc.1 = 0) :
    (phoneticStep dm t acc c a).2 = none → (phoneticStep dm t acc c a).1 = 0 := by
  rcases phoneticStep_cases dm t acc c a with hc | ⟨q, hc⟩ <;> rw [hc]
  · exact h
  · intro hnone
    simp at hnone

/-- A partial candidate step either keeps the accumulator or installs a
definite site with its score. -/
theorem partialStep_cases (words : List (List Char))
    (acc : ℚ × Option (List Char)) (c a : List Char) :
    partialStep words acc c a = acc ∨
    ∃ q, partialStep words acc c a = (q, some c) := by
  unfold partialStep
  dsimp only
  repeat' split
  all_goals first | exact Or.inl rfl | exact Or.inr ⟨_, rfl⟩

/-- One partial candidate step preserves the C4 invariant. -/
theorem partialStep_nullzero (words : List (List Char))
    (acc : ℚ × Option (List Char)) (c a : List Char)
    (h : acc.2 = none → acc.1 = 0) :
    (partialStep words acc c a).2 = none → (partialStep words acc c a).1 = 0 := by
  rcases partialStep_cases words acc c a with hc | ⟨q, hc⟩ <;> rw [hc]
  · exact h
  · intro hnone
    simp at hnone

/-- The C4 invariant for the exact strategy. -/
theorem h_exact_nullzero (cat : Catalog) (t : List Char) :
    NullZero (h_exact_match cat t) := by
  unfold NullZero h_exact_match
  split
  · split
    · intro h; simp at h
    · intro _; rfl
  · intro _; rfl

/-- The C4 invariant for the fuzzy strategy. -/
theorem h_fuzzy_nullzero (cat : Catalog) (t : List Char) :
    NullZero (h_fuzzy_match cat t) := by
  unfold NullZero h_fuzzy_match
  split
  · intro _; rfl
  · split
    · split
      · intro h; simp at h
      · intro _; rfl
    · intro _; rfl

/-- The C4 invariant for the phonetic strategy (for every encoder). -/
theorem h_phonetic_nullzero (dm : PhoneticEncoder) (cat : Catalog) (t : List Char) :
    NullZero (h_phonetic_match dm cat t) := by
  have hfold := foldl_preserve
    (fun acc : ℚ × Option (List Char) => acc.2 = none → acc.1 = 0)
    (fun acc p => p.2.foldl (fun acc al => phoneticStep dm t acc p.1 al) acc)
    cat ((0 : ℚ), (none : Option (List Char))) (fun _ => rfl)
    (fun b p hb => foldl_preserve _ _ p.2 b hb
      (fun b2 a2 hb2 => phoneticStep_nullzero dm t b2 p.1 a2 hb2))
  unfold NullZero h_phonetic_match
  dsimp only
  split
  · exact fun h => hfold h
  · intro _; rfl

/-- The C4 invariant for the partial strategy. -/
theorem h_partial_nullzero (cat : Catalog) (t : List Char) :
    NullZero (h_partial_match cat t) := by
  have hfold := foldl_preserve
    (fun acc : ℚ × Option (List Char) => acc.2 = none → acc.1 = 0)
    (fun acc p => p.2.foldl (fun acc al => partialStep (splitWS t) acc p.1 al) acc)
    cat ((0 : ℚ), (none : Option (List Char))) (fun _ => rfl)
    (fun b p hb => foldl_preserve _ _ p.2 b hb
      (fun b2 a2 hb2 => partialStep_nullzero (splitWS t) b2 p.1 a2 hb2))
  unfold NullZero h_partial_match
  dsimp only
  split
  · exact fun h => hfold h
  · intro _; rfl

/-- Keeping the strictly better of two results preserves the C4 invariant. -/
theorem keepBest_nullzero (a r : HResolutionResult) (ha : NullZero a)
    (hr : NullZero r) :
    NullZero (if r.confidence > a.confidence then r else a) := by
  split <;> assumption

/-- The C4 invariant for the whole heuristic resolver. -/
theorem h_resolve_nullzero (dm : PhoneticEncoder) (cat : Catalog) (t : List Char) :
    NullZero (h_resolve_site dm cat t) := by
  unfold NullZero h_resolve_site
  split
  · intro _; rfl
  · simp only [List.foldl]
    have h0 : NullZero ⟨none, 0, "heuristic", t, h_normalize_text t⟩ := fun _ => rfl
    have h1 := keepBest_nullzero _ _ h0 (h_exact_nullzero cat (h_normalize_text t))
    have h2 := keepBest_nullzero _ _ h1 (h_fuzzy_nullzero cat (h_normalize_text t))
    have h3 := keepBest_nullzero _ _ h2 (h_phonetic_nullzero dm cat (h_normalize_text t))
    have h4 := keepBest_nullzero _ _ h3 (h_partial_nullzero cat (h_normalize_text t))
    exact h4

/-- C4: every resolution path of `resolve.py` preserves the invariant: a
result with site `None` has confidence `0.0`.  This holds for the heuristic
resolver (for every phonetic encoder), for `LLMResolver.resolve_site` (whose
`_call_llm` placeholder always yields the null response), and for the
combined `_resolve_site_name` escalation path. -/
theorem C4_null_site_zero_confidence (dm : PhoneticEncoder)
    (is_available : Bool) (cat : Catalog) (text : List Char) :
    ((h_resolve_site dm cat text).site = none →
      (h_resolve_site dm cat text).confidence = 0) ∧
    ((llm_resolve_site is_available text).site = none →
      (llm_resolve_site is_available text).confidence = 0) ∧
    ((resolve_site_name dm is_available cat text).site = none →
      (resolve_site_name dm is_available cat text).confidence = 0) := by
  have hh := h_resolve_nullzero dm cat text
  have hl : NullZero (llm_resolve_site is_available text) := by
    unfold NullZero llm_resolve_site
    split <;> exact fun _ => rfl
  refine ⟨hh, hl, ?_⟩
  unfold resolve_site_name resolve_site_name_with
  dsimp only
  split_ifs <;> first | exact hh | exact hl

/-- Witness for `C4_null_site_zero_confidence`: on an empty catalog the text
`zz` resolves to no site, and both the heuristic and the combined path
indeed report confidence 0. -/
theorem C4_witness :
    (h_resolve_site dmTrivial [] "zz".toList).confidence = 0 ∧
    (resolve_site_name dmTrivial false [] "zz".toList).confidence = 0 :=
  ⟨(C4_null_site_zero_confidence dmTrivial false [] "zz".toList).1
      (by with_unfolding_all decide),
   (C4_null_site_zero_confidence dmTrivial false [] "zz".toList).2.2
      (by with_unfolding_all decide)⟩

/-!
## C9: idempotence of the text normalizer

`_normalize_text` lowercases, strips, regex-replaces a trailing
".com/.org/.net/.edu/.gov/.mil" (optionally followed by spaces), maps
punctuation to spaces, collapses whitespace and strips again.  We show
the pipeline output is always lowercase, punctuation-free, free of
consecutive whitespace and trimmed, and that on such inputs a second
pass reduces to the suffix-stripping chain alone.  Idempotence therefore
holds exactly when that chain fixes the first pass's output — and fails
in general ("x.com" → "x com" → "x").
-/

def sufChain (s : List Char) : List Char :=
  stripDomSuffix "mil".toList (stripDomSuffix "gov".toList (stripDomSuffix "edu".toList
    (stripDomSuffix "net".toList (stripDomSuffix "org".toList
      (stripDomSuffix "com".toList s)))))

theorem normalize_text_eq (t : List Char) :
    normalize_text t =
      pyStrip (collapseWS (punctToSpace (sufChain (pyStrip (t.map lowerChar))))) := rfl

def LowerFixed (s : List Char) : Prop := ∀ c ∈ s, lowerChar c = c

def NoPunct (s : List Char) : Prop := ∀ c ∈ s, isWord c = true ∨ c = ' '

inductive NoConsecWS : List Char → Prop
  | nil : NoConsecWS []
  | single (c : Char) : NoConsecWS [c]
  | cons (a b : Char) (t : List Char) :
      (isWS a = false ∨ isWS b = false) → NoConsecWS (b :: t) →
      NoConsecWS (a :: b :: t)

def TrimFixed (s : List Char) : Prop :=
  (∀ h ∈ s.head?, isWS h = false) ∧ (∀ h ∈ s.getLast?, isWS h = false)

theorem lowerChar_idem (c : Char) : lowerChar (lowerChar c) = lowerChar c := by
  unfold lowerChar
  split
  · rename_i h
    have hA : 'A' ≤ c := by
      have := h
      simp only [Bool.and_eq_true, decide_eq_true_eq] at this
      exact this.1
    have hZ : c ≤ 'Z' := by
      simp only [Bool.and_eq_true, decide_eq_true_eq] at h
      exact h.2
    have hto : (Char.ofNat (c.toNat + 32)).toNat = c.toNat + 32 := by
      have hv : c.toNat + 32 < 55296 := by
        have : c.toNat ≤ 'Z'.toNat := hZ
        have : c.toNat ≤ 90 := this
        omega
      unfold Char.ofNat
      rw [dif_pos (Or.inl hv)]
      rfl
    rw [if_neg]
    intro habs
    simp only [Bool.and_eq_true, decide_eq_true_eq] at habs
    have h1 : (65 : ℕ) ≤ 'A'.toNat := by decide
    have h2 : ('A'.toNat : ℕ) ≤ (Char.ofNat (c.toNat + 32)).toNat := habs.1
    have h3 : (Char.ofNat (c.toNat + 32)).toNat ≤ 'Z'.toNat := habs.2
    have h4 : ('A'.toNat : ℕ) ≥ 65 := by decide
    have h5 : ('Z'.toNat : ℕ) = 90 := by decide
    have h6 : 65 ≤ c.toNat := hA
    rw [hto] at h2 h3
    omega
  · rfl

theorem lower_map (t : List Char) : LowerFixed (t.map lowerChar) := by
  intro c hc
  obtain ⟨x, _, rfl⟩ := List.mem_map.mp hc
  exact lowerChar_idem x

theorem map_lower_fixed {s : List Char} (h : LowerFixed s) : s.map lowerChar = s := by
  conv_rhs => rw [← List.map_id s]
  exact List.map_congr_left h

theorem pyStrip_subset {c : Char} {s : List Char} (h : c ∈ pyStrip s) : c ∈ s := by
  unfold pyStrip at h
  rw [List.mem_reverse] at h
  have h2 := (List.dropWhile_sublist (l := (s.dropWhile isWS).reverse) isWS).subset h
  rw [List.mem_reverse] at h2
  exact (List.dropWhile_sublist isWS).subset h2

theorem stripDomSuffix_pref (w s : List Char) : stripDomSuffix w s <+: s := by
  have hsfx : ∀ n : ℕ, ((s.reverse.drop n).dropWhile isWS).reverse <+: s := by
    intro n
    have h1 : (s.reverse.drop n).dropWhile isWS <:+ s.reverse :=
      (List.dropWhile_suffix isWS).trans (List.drop_suffix n s.reverse)
    have h2 := List.reverse_prefix.mpr h1
    rwa [List.reverse_reverse] at h2
  have hsfx2 : ∀ n m : ℕ,
      ((((s.reverse.drop n).dropWhile isWS).drop m).dropWhile isWS).reverse <+: s := by
    intro n m
    have h1 : (((s.reverse.drop n).dropWhile isWS).drop m).dropWhile isWS <:+ s.reverse :=
      ((List.dropWhile_suffix isWS).trans (List.drop_suffix m _)).trans
        ((List.dropWhile_suffix isWS).trans (List.drop_suffix n s.reverse))
    have h2 := List.reverse_prefix.mpr h1
    rwa [List.reverse_reverse] at h2
  unfold stripDomSuffix
  dsimp only
  split
  · split
    · exact List.prefix_refl s
    · split
      · split
        · exact hsfx _
        · exact hsfx2 _ _
      · exact hsfx _
  · exact List.prefix_refl s

theorem sufChain_pref (s : List Char) : sufChain s <+: s := by
  unfold sufChain
  exact ((((( stripDomSuffix_pref _ _).trans
    (stripDomSuffix_pref _ _)).trans
    (stripDomSuffix_pref _ _)).trans
    (stripDomSuffix_pref _ _)).trans
    (stripDomSuffix_pref _ _)).trans
    (stripDomSuffix_pref _ _)

theorem isWord_not_ws (c : Char) (h : isWord c = true) : isWS c = false := by
  by_contra hws
  rw [Bool.not_eq_false] at hws
  unfold isWS at hws
  simp only [Bool.or_eq_true, decide_eq_true_eq] at hws
  rcases hws with ((((h1 | h1) | h1) | h1) | h1) | h1 <;> subst h1 <;>
    exact absurd h (by decide)

theorem punct_allWordWS (s : List Char) :
    ∀ c ∈ punctToSpace s, isWord c = true ∨ isWS c = true := by
  intro c hc
  obtain ⟨x, _, rfl⟩ := List.mem_map.mp hc
  by_cases hx : (isWord x || isWS x) = true
  · simp only [hx, if_true]
    exact Bool.or_eq_true_iff.mp hx
  · rw [if_neg hx]
    right
    decide

theorem punct_lower {s : List Char} (h : LowerFixed s) :
    LowerFixed (punctToSpace s) := by
  intro c hc
  obtain ⟨x, hx, rfl⟩ := List.mem_map.mp hc
  by_cases hcond : (isWord x || isWS x) = true
  · simp only [hcond, if_true]
    exact h x hx
  · rw [if_neg hcond]
    decide

theorem punct_fixed {s : List Char} (h : NoPunct s) : punctToSpace s = s := by
  unfold punctToSpace
  conv_rhs => rw [← List.map_id s]
  apply List.map_congr_left
  intro x hx
  rcases h x hx with hw | hsp
  · simp [hw]
  · subst hsp
    simp [isWS]

theorem collapse_mem_strong {c : Char} :
    ∀ {s : List Char}, c ∈ collapseWS s → (c ∈ s ∧ isWS c = false) ∨ c = ' ' := by
  intro s
  induction s with
  | nil => intro h; simp [collapseWS] at h
  | cons a t ih =>
    intro h
    cases t with
    | nil =>
      by_cases ha : isWS a = true
      · simp only [collapseWS, ha, if_true] at h
        right
        simpa using h
      · rw [Bool.not_eq_true] at ha
        simp only [collapseWS, ha, Bool.false_eq_true, if_false] at h
        left
        refine ⟨by simpa using h, ?_⟩
        rw [show c = a from by simpa using h]
        exact ha
    | cons b t2 =>
      by_cases ha : isWS a = true
      · by_cases hb : isWS b = true
        · rw [show collapseWS (a :: b :: t2) = collapseWS (b :: t2) from by
            simp [collapseWS, ha, hb]] at h
          rcases ih h with ⟨hm, hw⟩ | hsp
          · exact Or.inl ⟨List.mem_cons_of_mem a hm, hw⟩
          · exact Or.inr hsp
        · rw [show collapseWS (a :: b :: t2) = ' ' :: collapseWS (b :: t2) from by
            simp [collapseWS, ha, hb]] at h
          rcases List.mem_cons.mp h with hsp | hm
          · exact Or.inr hsp
          · rcases ih hm with ⟨hm2, hw⟩ | hsp
            · exact Or.inl ⟨List.mem_cons_of_mem a hm2, hw⟩
            · exact Or.inr hsp
      · rw [Bool.not_eq_true] at ha
        rw [show collapseWS (a :: b :: t2) = a :: collapseWS (b :: t2) from by
          simp [collapseWS, ha]] at h
        rcases List.mem_cons.mp h with hce | hm
        · subst hce
          exact Or.inl ⟨List.mem_cons_self _ _, ha⟩
        · rcases ih hm with ⟨hm2, hw⟩ | hsp
          · exact Or.inl ⟨List.mem_cons_of_mem a hm2, hw⟩
          · exact Or.inr hsp

theorem collapse_lower {s : List Char} (h : LowerFixed s) :
    LowerFixed (collapseWS s) := by
  intro c hc
  rcases collapse_mem_strong hc with ⟨hm, _⟩ | hsp
  · exact h c hm
  · subst hsp
    decide

theorem collapse_noPunct {s : List Char}
    (h : ∀ c ∈ s, isWord c = true ∨ isWS c = true) :
    NoPunct (collapseWS s) := by
  intro c hc
  rcases collapse_mem_strong hc with ⟨hm, hws⟩ | hsp
  · rcases h c hm with hw | hws2
    · exact Or.inl hw
    · rw [hws] at hws2
      cases hws2
  · exact Or.inr hsp

theorem collapseWS_head : ∀ (t : List Char) (c : Char),
    (collapseWS (c :: t)).head? = some (if isWS c = true then ' ' else c) := by
  intro t
  induction t with
  | nil =>
    intro c
    by_cases hc : isWS c = true <;> simp [collapseWS, hc]
  | cons d t2 ih =>
    intro c
    by_cases hc : isWS c = true
    · by_cases hd : isWS d = true
      · rw [show collapseWS (c :: d :: t2) = collapseWS (d :: t2) from by
          simp [collapseWS, hc, hd]]
        rw [ih d]
        simp [hc, hd]
      · rw [show collapseWS (c :: d :: t2) = ' ' :: collapseWS (d :: t2) from by
          simp [collapseWS, hc, hd]]
        simp [hc]
    · rw [Bool.not_eq_true] at hc
      rw [show collapseWS (c :: d :: t2) = c :: collapseWS (d :: t2) from by
        simp [collapseWS, hc]]
      simp [hc]

theorem noConsec_cons {a : Char} {l : List Char} (ha : isWS a = false)
    (hl : NoConsecWS l) : NoConsecWS (a :: l) := by
  cases l with
  | nil => exact NoConsecWS.single a
  | cons x xs => exact NoConsecWS.cons a x xs (Or.inl ha) hl

theorem noConsec_cons_space {l : List Char}
    (hh : ∀ h ∈ l.head?, isWS h = false) (hl : NoConsecWS l) :
    NoConsecWS (' ' :: l) := by
  cases l with
  | nil => exact NoConsecWS.single _
  | cons x xs => exact NoConsecWS.cons _ x xs (Or.inr (hh x rfl)) hl

theorem noConsec_collapse : ∀ s : List Char, NoConsecWS (collapseWS s) := by
  intro s
  induction s with
  | nil => exact NoConsecWS.nil
  | cons a t ih =>
    cases t with
    | nil =>
      by_cases ha : isWS a = true <;> simp [collapseWS, ha] <;> exact NoConsecWS.single _
    | cons b t2 =>
      by_cases ha : isWS a = true
      · by_cases hb : isWS b = true
        · rw [show collapseWS (a :: b :: t2) = collapseWS (b :: t2) from by
            simp [collapseWS, ha, hb]]
          exact ih
        · rw [show collapseWS (a :: b :: t2) = ' ' :: collapseWS (b :: t2) from by
            simp [collapseWS, ha, hb]]
          apply noConsec_cons_space
          · intro h hh
            rw [collapseWS_head t2 b] at hh
            rw [Bool.not_eq_true] at hb
            simp only [hb, Bool.false_eq_true, if_false] at hh
            have hbh : b = h := by simpa using hh
            rw [← hbh]
            exact hb
          · exact ih
      · rw [Bool.not_eq_true] at ha
        rw [show collapseWS (a :: b :: t2) = a :: collapseWS (b :: t2) from by
          simp [collapseWS, ha]]
        exact noConsec_cons ha ih

theorem noConsec_tail {a : Char} {l : List Char} (h : NoConsecWS (a :: l)) :
    NoConsecWS l := by
  cases l with
  | nil => exact NoConsecWS.nil
  | cons x xs =>
    cases h with
    | cons _ _ _ _ hrest => exact hrest

theorem noConsec_suffix {l1 l2 : List Char} (h : l1 <:+ l2) (h2 : NoConsecWS l2) :
    NoConsecWS l1 := by
  obtain ⟨t, rfl⟩ := h
  induction t with
  | nil => exact h2
  | cons x xs ih => exact ih (noConsec_tail h2)

theorem noConsec_pref : ∀ {l1 l2 : List Char}, l1 <+: l2 → NoConsecWS l2 →
    NoConsecWS l1 := by
  intro l1
  induction l1 with
  | nil => intro l2 _ _; exact NoConsecWS.nil
  | cons a t ih =>
    intro l2 hpre h2
    obtain ⟨r, rfl⟩ := hpre
    cases t with
    | nil => exact NoConsecWS.single a
    | cons b t2 =>
      cases h2 with
      | cons _ _ _ hpair hrest =>
        exact NoConsecWS.cons a b t2 hpair (ih ⟨r, rfl⟩ hrest)

theorem head_dropWhile_not (p : Char → Bool) :
    ∀ (l : List Char), ∀ h ∈ (l.dropWhile p).head?, p h = false := by
  intro l
  induction l with
  | nil => intro h hh; cases hh
  | cons a t ih =>
    intro h hh
    by_cases ha : p a = true
    · rw [List.dropWhile_cons_of_pos ha] at hh
      exact ih h hh
    · rw [Bool.not_eq_true] at ha
      rw [List.dropWhile_cons_of_neg (by simp [ha])] at hh
      have : a = h := by simpa using hh
      rw [← this]
      exact ha

theorem prefix_head_eq {l1 l2 : List Char} (h : l1 <+: l2) (hne : l1 ≠ []) :
    l1.head? = l2.head? := by
  obtain ⟨t, rfl⟩ := h
  cases l1 with
  | nil => exact absurd rfl hne
  | cons a t2 => rfl

theorem trimRight_pref (l : List Char) : (l.reverse.dropWhile isWS).reverse <+: l := by
  have h1 : l.reverse.dropWhile isWS <:+ l.reverse := List.dropWhile_suffix isWS
  have h2 := List.reverse_prefix.mpr h1
  rwa [List.reverse_reverse] at h2

theorem pyStrip_trimFixed (s : List Char) : TrimFixed (pyStrip s) := by
  constructor
  · intro h hh
    have hne : pyStrip s ≠ [] := by
      intro he
      rw [he] at hh
      cases hh
    have heq : (pyStrip s).head? = (s.dropWhile isWS).head? :=
      prefix_head_eq (trimRight_pref (s.dropWhile isWS)) hne
    rw [heq] at hh
    exact head_dropWhile_not isWS s h hh
  · intro h hh
    unfold pyStrip at hh
    rw [List.getLast?_reverse] at hh
    exact head_dropWhile_not isWS _ h hh

theorem dropWhile_eq_self_of_head {l : List Char}
    (h : ∀ x ∈ l.head?, isWS x = false) : l.dropWhile isWS = l := by
  cases l with
  | nil => rfl
  | cons a t =>
    rw [List.dropWhile_cons_of_neg]
    simp [h a rfl]

theorem pyStrip_fixed {s : List Char} (h : TrimFixed s) : pyStrip s = s := by
  unfold pyStrip
  rw [dropWhile_eq_self_of_head h.1,
    dropWhile_eq_self_of_head (by rw [List.head?_reverse]; exact h.2),
    List.reverse_reverse]

theorem collapse_fixed : ∀ {s : List Char}, NoPunct s → NoConsecWS s →
    collapseWS s = s := by
  intro s
  induction s with
  | nil => intro _ _; rfl
  | cons a t ih =>
    intro hp hc
    cases t with
    | nil =>
      by_cases ha : isWS a = true
      · have haa : a = ' ' := by
          rcases hp a (List.mem_cons_self _ _) with hw | hsp
          · rw [isWord_not_ws a hw] at ha; cases ha
          · exact hsp
        simp [collapseWS, ha, haa]
      · rw [Bool.not_eq_true] at ha
        simp [collapseWS, ha]
    | cons b t2 =>
      have hp2 : NoPunct (b :: t2) := fun c hcm => hp c (List.mem_cons_of_mem a hcm)
      obtain ⟨hpair, hc2⟩ : (isWS a = false ∨ isWS b = false) ∧ NoConsecWS (b :: t2) := by
        cases hc with
        | cons _ _ _ hpair hrest => exact ⟨hpair, hrest⟩
      by_cases ha : isWS a = true
      · have haa : a = ' ' := by
          rcases hp a (List.mem_cons_self _ _) with hw | hsp
          · rw [isWord_not_ws a hw] at ha; cases ha
          · exact hsp
        have hb : isWS b = false := by
          rcases hpair with h1 | h1
          · rw [ha] at h1; cases h1
          · exact h1
        rw [show collapseWS (a :: b :: t2) = ' ' :: collapseWS (b :: t2) from by
          simp [collapseWS, ha, hb]]
        rw [ih hp2 hc2, haa]
      · rw [Bool.not_eq_true] at ha
        rw [show collapseWS (a :: b :: t2) = a :: collapseWS (b :: t2) from by
          simp [collapseWS, ha]]
        rw [ih hp2 hc2]

theorem stripDomSuffix_last {w s : List Char}
    (h : ∀ x ∈ s.getLast?, isWS x = false) :
    ∀ x ∈ (stripDomSuffix w s).getLast?, isWS x = false := by
  unfold stripDomSuffix
  dsimp only
  split
  · split
    · exact h
    · split
      · split
        · intro x hx
          rw [List.getLast?_reverse] at hx
          exact head_dropWhile_not isWS _ x hx
        · intro x hx
          rw [List.getLast?_reverse] at hx
          exact head_dropWhile_not isWS _ x hx
      · intro x hx
        rw [List.getLast?_reverse] at hx
        exact head_dropWhile_not isWS _ x hx
  · exact h

theorem sufChain_last {s : List Char}
    (h : ∀ x ∈ s.getLast?, isWS x = false) :
    ∀ x ∈ (sufChain s).getLast?, isWS x = false := by
  unfold sufChain
  exact stripDomSuffix_last (stripDomSuffix_last (stripDomSuffix_last
    (stripDomSuffix_last (stripDomSuffix_last (stripDomSuffix_last h)))))

theorem sufChain_head {s : List Char}
    (h : ∀ x ∈ s.head?, isWS x = false) :
    ∀ x ∈ (sufChain s).head?, isWS x = false := by
  intro x hx
  rcases he : sufChain s with _ | ⟨a, t⟩
  · rw [he] at hx; cases hx
  · have hne : sufChain s ≠ [] := by rw [he]; simp
    have heq := prefix_head_eq (sufChain_pref s) hne
    rw [heq] at hx
    exact h x hx

theorem pipeline_isNormal (y : List Char) (hy : LowerFixed y) :
    LowerFixed (pyStrip (collapseWS (punctToSpace y))) ∧
    NoPunct (pyStrip (collapseWS (punctToSpace y))) ∧
    NoConsecWS (pyStrip (collapseWS (punctToSpace y))) ∧
    TrimFixed (pyStrip (collapseWS (punctToSpace y))) := by
  refine ⟨?_, ?_, ?_, pyStrip_trimFixed _⟩
  · intro c hc
    rcases collapse_mem_strong (pyStrip_subset hc) with ⟨hm, _⟩ | hsp
    · exact punct_lower hy c hm
    · subst hsp; decide
  · intro c hc
    exact collapse_noPunct (punct_allWordWS _) c (pyStrip_subset hc)
  · exact noConsec_pref (trimRight_pref _)
      (noConsec_suffix (List.dropWhile_suffix isWS) (noConsec_collapse (punctToSpace y)))

theorem pipeline_fixed (y : List Char) (h2 : NoPunct y) (h3 : NoConsecWS y)
    (h4 : TrimFixed y) : pyStrip (collapseWS (punctToSpace y)) = y := by
  rw [punct_fixed h2, collapse_fixed h2 h3, pyStrip_fixed h4]

theorem normalize_isNormal (t : List Char) :
    LowerFixed (normalize_text t) ∧ NoPunct (normalize_text t) ∧
    NoConsecWS (normalize_text t) ∧ TrimFixed (normalize_text t) := by
  have hy : LowerFixed (sufChain (pyStrip (t.map lowerChar))) := by
    intro d hd
    have hdx := (sufChain_pref (pyStrip (t.map lowerChar))).sublist.subset hd
    exact lower_map t d (pyStrip_subset hdx)
  rw [normalize_text_eq]
  exact pipeline_isNormal _ hy

theorem normalize_fixed_on_normal {s : List Char}
    (h1 : LowerFixed s) (h2 : NoPunct s) (h3 : NoConsecWS s) (h4 : TrimFixed s) :
    normalize_text s = sufChain s := by
  have hpre := sufChain_pref s
  have h2u : NoPunct (sufChain s) := fun c hc => h2 c (hpre.sublist.subset hc)
  have h3u : NoConsecWS (sufChain s) := noConsec_pref hpre h3
  have h4u : TrimFixed (sufChain s) := ⟨sufChain_head h4.1, sufChain_last h4.2⟩
  have e1 : pyStrip (s.map lowerChar) = s := by
    rw [map_lower_fixed h1]
    exact pyStrip_fixed h4
  calc normalize_text s
      = pyStrip (collapseWS (punctToSpace (sufChain (pyStrip (s.map lowerChar))))) :=
        normalize_text_eq s
    _ = pyStrip (collapseWS (punctToSpace (sufChain s))) := by rw [e1]
    _ = sufChain s := pipeline_fixed (sufChain s) h2u h3u h4u

/-- C9: the text normalizer is idempotent on every input whose one-pass
normal form is already free of strippable trailing domain suffixes: if
applying the suffix-stripping chain to `normalize_text t` leaves it
unchanged, then `normalize_text (normalize_text t) = normalize_text t`.
(The unconditional idempotence claimed by the spec is refuted by
`C9_counterexample` below: suffix stripping only fires after lowering,
so a second pass can strip a suffix the first pass exposed.) -/
theorem C9_conditional_idempotent (t : List Char)
    (hfix : sufChain (normalize_text t) = normalize_text t) :
    normalize_text (normalize_text t) = normalize_text t := by
  obtain ⟨h1, h2, h3, h4⟩ := normalize_isNormal t
  exact (normalize_fixed_on_normal h1 h2 h3 h4).trans hfix

/-- C9 counterexample: on input "x.com" the first normalization pass turns
the dot into a space ("x com") without stripping the suffix, and a second
pass then strips the now-trailing " com", yielding "x"; so the normalizer
is not idempotent. -/
theorem C9_counterexample :
    normalize_text (normalize_text ("x.com".toList)) ≠
      normalize_text ("x.com".toList) := by
  with_unfolding_all decide

/-- Witness for C9: the input "hello world" satisfies the side condition
(its normal form has no strippable domain suffix), and the normalizer is
indeed idempotent on it. -/
theorem C9_witness :
    normalize_text (normalize_text ("hello world".toList)) =
      normalize_text ("hello world".toList) :=
  C9_conditional_idempotent ("hello world".toList) (by with_unfolding_all decide)

end Blackbox
